import Mathlib

/-!
# TFSArray (`Project_5/tfsarray.h`): a shallow embedding

`TFSArray<T>` is a resizable array owning one heap buffer.  The embedding keeps the
three data members, models the buffer behind `_data` as a list of slots (`none` for
`nullptr`), models iterators as signed offsets from `begin()`, and makes the three
ways a member function can end explicit: normal return, a propagating exception
(together with the state the object is left in), and undefined behaviour.

`size_type` is `std::size_t`; its arithmetic is unsigned arithmetic modulo `2 ^ w`.
-/

namespace TFS

/-- Exceptions that can leave a member function. -/
inductive Exn where
  /-- Raised by `new value_type[n]` (`std::bad_alloc`). -/
  | badAlloc
  /-- Raised by the range check of `insert` / `erase` (`std::out_of_range`). -/
  | outOfRange
  /-- Raised by `value_type` when an element is copied (assigned or constructed). -/
  | elemCopy
  deriving DecidableEq, Repr

/-- How a call ends: `ok s r` is a normal return with final state `s` and result `r`;
`raise s e` is exception `e` leaving the call with the object in state `s`;
`undefined` is undefined behaviour (out-of-bounds access, invalid iterator range). -/
inductive Outcome (σ α : Type) where
  | ok (s : σ) (r : α)
  | raise (s : σ) (e : Exn)
  | undefined
  deriving DecidableEq, Repr

/-- What the class is compiled against: the width of `size_type`, the allocator and the
element type's behaviour. -/
structure Env (T : Type) where
  /-- Number of bits of `std::size_t`. -/
  w : Nat
  /-- Value held by a slot freshly created by `new value_type[n]`. -/
  dflt : T
  /-- Whether `new value_type[n]` throws `std::bad_alloc`. -/
  allocFails : Nat → Bool
  /-- Whether assigning from this value throws.  This governs every element assignment:
  those of `std::copy`, the one of `insert`, and those inside `std::swap`. -/
  copyThrows : T → Bool
  /-- Whether constructing a new element from this value throws.  The class constructs an
  element from another only for the temporary of `std::swap`. -/
  ctorThrows : T → Bool

/-- Data members of `TFSArray<T>` (lines 269-271). -/
structure TFSArray (T : Type) where
  _capacity : Nat
  _size : Nat
  _data : Option (List T)
  deriving DecidableEq, Repr

/-- Enumerator `DEFAULT_CAP` (line 50). -/
def DEFAULT_CAP : Nat := 16

/-- Model of `std::copy(first, last, d_first)`: `src` is the source range, `dst` the
slots starting at `d_first`.  Elements are assigned front to back; the first throwing
assignment ends the copy with the destination as written so far; running off the
destination is undefined. -/
def stdCopy {T : Type} (env : Env T) : List T → List T → Outcome (List T) Unit
  | [], dst => .ok dst ()
  | _ :: _, [] => .undefined
  | x :: xs, d :: ds =>
    if env.copyThrows x then .raise (d :: ds) .elemCopy
    else
      match stdCopy env xs ds with
      | .ok ds1 _ => .ok (x :: ds1) ()
      | .raise ds1 e => .raise (x :: ds1) e
      | .undefined => .undefined

/-- Model of `std::iter_swap` on the slots `i` and `j` of a buffer, that is `std::swap`
on two elements: `T tmp = buf[i]; buf[i] = buf[j]; buf[j] = tmp;`.  Each of the three
steps may throw: the construction of `tmp` and the first assignment leave the buffer as
it was, the second assignment leaves the first one done.  (The steps are taken as
copies: an element that is the source of a step keeps its value.)  A slot outside the
buffer is undefined. -/
def iterSwap {T : Type} (env : Env T) (buf : List T) (i j : Nat) : Outcome (List T) Unit :=
  match buf[i]?, buf[j]? with
  | some a, some b =>
    if env.ctorThrows a then .raise buf .elemCopy
    else if env.copyThrows b then .raise buf .elemCopy
    else if env.copyThrows a then .raise (buf.set i b) .elemCopy
    else .ok ((buf.set i b).set j a) ()
  | _, _ => .undefined

/-- The loop `for (c times) { iter_swap(p, q); ++p; ++q; }` of `std::rotate` and
`std::swap_ranges`, with `p` at slot `i` and `q` at slot `j`. -/
def swapRunUp {T : Type} (env : Env T) : Nat → List T → Nat → Nat → Outcome (List T) Unit
  | 0, buf, _, _ => .ok buf ()
  | c + 1, buf, i, j =>
    match iterSwap env buf i j with
    | .ok b _ => swapRunUp env c b (i + 1) (j + 1)
    | .raise b e => .raise b e
    | .undefined => .undefined

/-- The loop `for (c times) { --p; --q; iter_swap(p, q); }` of `std::rotate`, with `p`
at slot `i` and `q` at slot `j`. -/
def swapRunDown {T : Type} (env : Env T) : Nat → List T → Nat → Nat → Outcome (List T) Unit
  | 0, buf, _, _ => .ok buf ()
  | c + 1, buf, i, j =>
    if i = 0 ∨ j = 0 then .undefined
    else
      match iterSwap env buf (i - 1) (j - 1) with
      | .ok b _ => swapRunDown env c b (i - 1) (j - 1)
      | .raise b e => .raise b e
      | .undefined => .undefined

/-- The main loop of `std::rotate` for random-access iterators (libstdc++), on the `n`
slots starting at slot `p`, of which the first `k` are to end up last.  Every round swaps
a block into place and goes on with a strictly shorter range, so `n` rounds of fuel are
enough. -/
def rotateLoop {T : Type} (env : Env T) :
    Nat → List T → Nat → Nat → Nat → Outcome (List T) Unit
  | 0, buf, _, _, _ => .ok buf ()
  | fuel + 1, buf, p, n, k =>
    if k < n - k then
      match swapRunUp env (n - k) buf p (p + k) with
      | .ok b _ =>
        if n % k = 0 then .ok b ()
        else rotateLoop env fuel b (p + (n - k)) k (k - n % k)
      | .raise b e => .raise b e
      | .undefined => .undefined
    else
      match swapRunDown env (n - (n - k)) buf (p + n - (n - k)) (p + n) with
      | .ok b _ =>
        if n % (n - k) = 0 then .ok b ()
        else rotateLoop env fuel b p (n - k) (n % (n - k))
      | .raise b e => .raise b e
      | .undefined => .undefined

/-- Model of `std::rotate(first, middle, last)` on the buffer `buf`, the three iterators
given as offsets into it, as libstdc++ performs it for random-access iterators: nothing
is touched when `first == middle` or `middle == last`; otherwise the elements of
`[middle, last)` are brought in front of those of `[first, middle)` by a sequence of
`iter_swap` calls, and an exception thrown by one of them leaves `std::rotate` with the
buffer as swapped so far.  (For a trivial element type the library uses a block move
instead, which cannot throw and gives the same final buffer.)  An invalid range is
undefined. -/
def stdRotate {T : Type} (env : Env T) (buf : List T) (first middle last : Nat) :
    Outcome (List T) Unit :=
  if first ≤ middle ∧ middle ≤ last ∧ last ≤ buf.length then
    if first = middle then .ok buf ()
    else if last = middle then .ok buf ()
    else if middle - first = (last - first) - (middle - first) then
      swapRunUp env (middle - first) buf first middle
    else rotateLoop env (last - first) buf first (last - first) (middle - first)
  else .undefined

namespace TFSArray

variable {T : Type}

/-- The range `[begin(), end())` read as a sequence of values; `none` when it reaches
outside the storage behind `_data` (reading it would be undefined). -/
def range (a : TFSArray T) : Option (List T) :=
  match a._data with
  | none => if a._size = 0 then some [] else none
  | some buf => if a._size ≤ buf.length then some (buf.take a._size) else none

/-- The logical sequence: the elements at indices `[0, size)`. -/
def toList (a : TFSArray T) : List T :=
  (a._data.getD []).take a._size

/-- Default ctor and ctor from size (lines 60-64).  A constructor has no prior object, so
the state component of the outcome is `Unit`. -/
def ctor (env : Env T) (size : Nat) : Outcome Unit (TFSArray T) :=
  let capacity := max size DEFAULT_CAP
  if capacity = 0 then .ok () ⟨capacity, size, none⟩
  else if env.allocFails capacity then .raise () .badAlloc
  else .ok () ⟨capacity, size, some (List.replicate capacity env.dflt)⟩

/-- Copy ctor (lines 68-81). -/
def copyCtor (env : Env T) (other : TFSArray T) : Outcome Unit (TFSArray T) :=
  if other._capacity = 0 then
    match other.range with
    | some [] => .ok () ⟨other._capacity, other._size, none⟩
    | _ => .undefined
  else if env.allocFails other._capacity then .raise () .badAlloc
  else
    match other.range with
    | none => .undefined
    | some src =>
      match stdCopy env src (List.replicate other._capacity env.dflt) with
      | .ok buf _ => .ok () ⟨other._capacity, other._size, some buf⟩
      | .raise _ e => .raise () e
      | .undefined => .undefined

/-- Move ctor (lines 85-93): returns the new object and the moved-from `other`. -/
def moveCtor (other : TFSArray T) : TFSArray T × TFSArray T :=
  (⟨other._capacity, other._size, other._data⟩, ⟨0, 0, none⟩)

/-- Member `size` (lines 142-144). -/
def size (a : TFSArray T) : Nat := a._size

/-- Member `empty` (lines 149-151). -/
def empty (a : TFSArray T) : Bool := a.size == 0

/-- Member `swap` (lines 258-262): returns the new `*this` and the new `other`. -/
def swap (a other : TFSArray T) : TFSArray T × TFSArray T :=
  (⟨other._capacity, other._size, other._data⟩, ⟨a._capacity, a._size, a._data⟩)

/-- Copy assignment (lines 97-101): copy-construct a temporary, swap with it, destroy
it. -/
def copyAssign (env : Env T) (a other : TFSArray T) : Outcome (TFSArray T) Unit :=
  match copyCtor env other with
  | .ok _ copy_of_rhs => .ok (a.swap copy_of_rhs).1 ()
  | .raise _ e => .raise a e
  | .undefined => .undefined

/-- Move assignment (lines 105-108): returns the new `*this` and the new `other`. -/
def moveAssign (a other : TFSArray T) : TFSArray T × TFSArray T :=
  a.swap other

/-- Member `resize` (lines 180-200). -/
def resize (env : Env T) (a : TFSArray T) (newsize : Nat) : Outcome (TFSArray T) Unit :=
  if newsize > a._capacity then
    let newCapacity := max newsize (5 * a._capacity % 2 ^ env.w / 3)
    if env.allocFails newCapacity then .raise a .badAlloc
    else
      match a.range with
      | none => .undefined
      | some src =>
        match stdCopy env src (List.replicate newCapacity env.dflt) with
        | .ok newData _ => .ok ⟨newCapacity, newsize, some newData⟩ ()
        | .raise _ e => .raise a e
        | .undefined => .undefined
  else .ok { a with _size := newsize } ()

/-- Member `insert` (lines 205-220).  `pos` is the offset of the iterator from
`begin()`; the result is the offset of the returned iterator from the new `begin()`.
The `catch (...) { throw; }` around `std::rotate` passes its exception on, the object
being left resized and with the buffer as swapped so far. -/
def insert (env : Env T) (a : TFSArray T) (pos : Int) (item : T) :
    Outcome (TFSArray T) Nat :=
  if pos < 0 ∨ pos > (a._size : Int) then .raise a .outOfRange
  else
    let index := pos.toNat
    match a.resize env ((a._size + 1) % 2 ^ env.w) with
    | .raise s e => .raise s e
    | .undefined => .undefined
    | .ok a1 _ =>
      let last := (a1._size + 2 ^ env.w - 1) % 2 ^ env.w
      match a1._data with
      | none => .undefined
      | some buf =>
        if last < buf.length then
          if env.copyThrows item then .raise a1 .elemCopy
          else
            match stdRotate env (buf.set last item) index last a1._size with
            | .ok buf2 _ => .ok { a1 with _data := some buf2 } index
            | .raise buf2 e => .raise { a1 with _data := some buf2 } e
            | .undefined => .undefined
        else .undefined

/-- Member `erase` (lines 225-239), with the same conventions as `insert`.  An exception
leaving `std::rotate` is passed on before `resize` is reached, the size unchanged and the
buffer as swapped so far. -/
def erase (env : Env T) (a : TFSArray T) (pos : Int) : Outcome (TFSArray T) Nat :=
  if pos < 0 ∨ pos > (a._size : Int) then .raise a .outOfRange
  else
    let index := pos.toNat
    match a._data with
    | none => .undefined
    | some buf =>
      match stdRotate env buf index (index + 1) a._size with
      | .undefined => .undefined
      | .raise buf1 e => .raise { a with _data := some buf1 } e
      | .ok buf1 _ =>
        let a1 : TFSArray T := { a with _data := some buf1 }
        match a1.resize env ((a1._size + 2 ^ env.w - 1) % 2 ^ env.w) with
        | .ok a2 _ => .ok a2 index
        | .raise s e => .raise s e
        | .undefined => .undefined

/-- Member `push_back` (lines 244-246). -/
def push_back (env : Env T) (a : TFSArray T) (item : T) : Outcome (TFSArray T) Unit :=
  match a.insert env (a._size : Int) item with
  | .ok s _ => .ok s ()
  | .raise s e => .raise s e
  | .undefined => .undefined

/-- Member `pop_back` (lines 251-253).  `end() - 1` is address arithmetic: on an empty
array it is the offset `-1`, one slot before `begin()`. -/
def pop_back (env : Env T) (a : TFSArray T) : Outcome (TFSArray T) Unit :=
  match a.erase env ((a._size : Int) - 1) with
  | .ok s _ => .ok s ()
  | .raise s e => .raise s e
  | .undefined => .undefined

/-- Class invariants (lines 19-23): `_size <= _capacity`, and `_data` is `nullptr` when
`_capacity == 0` and otherwise holds exactly `_capacity` values. -/
def Inv (a : TFSArray T) : Prop :=
  a._size ≤ a._capacity ∧
    match a._data with
    | none => a._capacity = 0
    | some buf => buf.length = a._capacity ∧ a._capacity ≠ 0

end TFSArray

/-- State the object is left in when the call is defined. -/
def Outcome.finalState {σ α : Type} : Outcome σ α → Option σ
  | .ok s _ => some s
  | .raise s _ => some s
  | .undefined => none

/-- A caller's loop `for (x : xs) a.push_back(x);`, stopping at the first call that does
not return normally. -/
def pushAll {T : Type} (env : Env T) : TFSArray T → List T → Outcome (TFSArray T) Unit
  | a, [] => .ok a ()
  | a, x :: xs =>
    match a.push_back env x with
    | .ok b _ => pushAll env b xs
    | .raise s e => .raise s e
    | .undefined => .undefined

/-! ## The free store

To speak about which object owns which storage, the copy constructor and a write through
`operator[]` are also given with `_data` kept as an address into an explicit free store. -/

/-- The free store: `h[p]?` is the array created by the `p`-th `new[]`, or `none` once
`delete[]` has released it.  `new[]` returns the next unused address, `h.length`. -/
abbrev Heap (T : Type) := List (Option (List T))

/-- The array behind a pointer: `none` for `nullptr` and for an address holding no live
array. -/
def Heap.deref {T : Type} (h : Heap T) : Option Nat → Option (List T)
  | none => none
  | some p => (h[p]?).join

/-- Data members of `TFSArray<T>` (lines 269-271) with `_data` as an address. -/
structure Rep where
  _capacity : Nat
  _size : Nat
  _data : Option Nat
  deriving DecidableEq, Repr

/-- The array value an object denotes in a given free store. -/
def Rep.view {T : Type} (h : Heap T) (r : Rep) : TFSArray T :=
  ⟨r._capacity, r._size, h.deref r._data⟩

/-- Copy ctor (lines 68-81) on the free store: the state component is the free store
after the call, the result is the constructed object.  When the copy throws, the block
just allocated is released before the exception propagates. -/
def Rep.copyCtor {T : Type} (env : Env T) (h : Heap T) (other : Rep) :
    Outcome (Heap T) Rep :=
  if other._capacity = 0 then
    match (other.view h).range with
    | some [] => .ok h ⟨other._capacity, other._size, none⟩
    | _ => .undefined
  else if env.allocFails other._capacity then .raise h .badAlloc
  else
    match (other.view h).range with
    | none => .undefined
    | some src =>
      match stdCopy env src (List.replicate other._capacity env.dflt) with
      | .ok buf _ => .ok (h ++ [some buf]) ⟨other._capacity, other._size, some h.length⟩
      | .raise _ e => .raise (h ++ [none]) e
      | .undefined => .undefined

/-- A write `a[index] = v` through `operator[]` (lines 126-128) on the free store; `none`
when the access is outside the storage behind `_data`, or when the assignment throws
(the slot is then left as it was, so the free store is unchanged). -/
def Rep.subscriptAssign {T : Type} (env : Env T) (h : Heap T) (r : Rep) (index : Nat)
    (v : T) : Option (Heap T) :=
  match r._data with
  | none => none
  | some p =>
    match h.deref (some p) with
    | none => none
    | some buf =>
      if index < buf.length ∧ env.copyThrows v = false then
        some (h.set p (some (buf.set index v)))
      else none

/-! ## Concrete instances -/

/-- A 64-bit target with `int`-like elements where neither allocation nor copying
fails. -/
def envNat : Env Nat := ⟨64, 0, fun _ => false, fun _ => false, fun _ => false⟩

/-- A 32-bit target with byte-like elements where neither allocation nor copying
fails. -/
def env32 : Env Nat := ⟨32, 0, fun _ => false, fun _ => false, fun _ => false⟩

/-- A 64-bit target whose element type throws when the value `7` is assigned from;
constructing an element never throws. -/
def envThrow7 : Env Nat := ⟨64, 0, fun _ => false, fun x => x == 7, fun _ => false⟩

/-- The default-constructed array: capacity 16, size 0. -/
def arr0 : TFSArray Nat := ⟨16, 0, some (List.replicate 16 0)⟩

/-- The array after `push_back(1)`, `push_back(2)`, `push_back(3)` on `arr0`. -/
def arr123 : TFSArray Nat := ⟨16, 3, some [1, 2, 3, 0, 0, 0, 0, 0, 0, 0, 0, 0, 0, 0, 0, 0]⟩

/-- A full array of capacity 2 holding `[5, 7]`, as reached from a moved-from array by
`push_back(5)` and `push_back(6)` followed by an in-place `++a[1]`. -/
def arr7 : TFSArray Nat := ⟨2, 2, some [5, 7]⟩

/-- A full array of capacity 3 holding `[5, 7, 8]`, as reached from a moved-from array by
`push_back(5)`, `push_back(6)`, `push_back(8)` followed by an in-place `++a[1]`. -/
def arr578 : TFSArray Nat := ⟨3, 3, some [5, 7, 8]⟩

/-- The default-constructed array after `push_back(5)`, `push_back(6)` and an in-place
`++a[1]`: the sequence `[5, 7]` with capacity 16. -/
def arr57 : TFSArray Nat := ⟨16, 2, some [5, 7, 0, 0, 0, 0, 0, 0, 0, 0, 0, 0, 0, 0, 0, 0]⟩

/-- The array built by `TFSArray(858993460)` on the 32-bit target. -/
def big32 : TFSArray Nat := ⟨858993460, 858993460, some (List.replicate 858993460 0)⟩

/-- A free store holding one block, the buffer of `arr123`, at address 0. -/
def heap123 : Heap Nat := [some [1, 2, 3, 0, 0, 0, 0, 0, 0, 0, 0, 0, 0, 0, 0, 0]]

/-- The object `arr123` with its buffer at address 0 of `heap123`. -/
def rep123 : Rep := ⟨16, 3, some 0⟩

/-- The array `arr123` after `insert(begin()+1, 9)`. -/
def arr1923 : TFSArray Nat :=
  ⟨16, 4, some [1, 9, 2, 3, 0, 0, 0, 0, 0, 0, 0, 0, 0, 0, 0, 0]⟩

/-- The array `arr1923` after `erase(begin()+0)`; the erased value stays in the slot
just past the end. -/
def arr923 : TFSArray Nat :=
  ⟨16, 3, some [9, 2, 3, 1, 0, 0, 0, 0, 0, 0, 0, 0, 0, 0, 0, 0]⟩

/-- The array `arr923` after `pop_back()`. -/
def arr92 : TFSArray Nat :=
  ⟨16, 2, some [9, 2, 3, 1, 0, 0, 0, 0, 0, 0, 0, 0, 0, 0, 0, 0]⟩

/-! ## Auxiliary facts -/

section aux

variable {T : Type}

theorem stdCopy_all_ok (env : Env T) (src : List T) :
    ∀ dst : List T, src.length ≤ dst.length → (∀ x ∈ src, env.copyThrows x = false) →
      stdCopy env src dst = .ok (src ++ dst.drop src.length) () := by
  induction src with
  | nil => intro dst _ _; simp [stdCopy]
  | cons x xs ih =>
    intro dst hlen hall
    cases dst with
    | nil => simp at hlen
    | cons d ds =>
      have hx : env.copyThrows x = false := hall x (List.mem_cons_self _ _)
      have hxs : ∀ y ∈ xs, env.copyThrows y = false :=
        fun y hy => hall y (List.mem_cons_of_mem _ hy)
      have hl : xs.length ≤ ds.length := by simpa using hlen
      simp [stdCopy, hx, ih ds hl hxs]

theorem stdCopy_some_throws (env : Env T) (src : List T) :
    ∀ dst : List T, src.length ≤ dst.length → (∃ x ∈ src, env.copyThrows x = true) →
      ∃ d, stdCopy env src dst = .raise d .elemCopy := by
  induction src with
  | nil => intro dst _ h; simp at h
  | cons x xs ih =>
    intro dst hlen hex
    cases dst with
    | nil => simp at hlen
    | cons d ds =>
      have hl : xs.length ≤ ds.length := by simpa using hlen
      by_cases hx : env.copyThrows x = true
      · exact ⟨d :: ds, by simp [stdCopy, hx]⟩
      · have hx2 : env.copyThrows x = false := by simpa using hx
        obtain ⟨y, hy, hty⟩ := hex
        have hy2 : y ∈ xs := by
          rcases List.mem_cons.mp hy with h | h
          · subst h; exact absurd hty hx
          · exact h
        obtain ⟨d1, hd1⟩ := ih ds hl ⟨y, hy2, hty⟩
        exact ⟨x :: d1, by simp [stdCopy, hx2, hd1]⟩

theorem stdCopy_raise_exn (env : Env T) (src : List T) :
    ∀ (dst d : List T) (e : Exn), stdCopy env src dst = .raise d e → e = .elemCopy := by
  induction src with
  | nil => intro dst d e h; simp [stdCopy] at h
  | cons x xs ih =>
    intro dst d e h
    cases dst with
    | nil => simp [stdCopy] at h
    | cons d0 ds =>
      by_cases hx : env.copyThrows x = true
      · simp [stdCopy, hx] at h; exact h.2.symm
      · have hx2 : env.copyThrows x = false := by simpa using hx
        simp only [stdCopy, hx2] at h
        cases hr : stdCopy env xs ds with
        | ok s r => simp [hr] at h
        | raise s e1 =>
          simp [hr] at h
          have := ih ds s e1 hr
          rw [← h.2]; exact this
        | undefined => simp [hr] at h

theorem stdCopy_ok_length (env : Env T) (src : List T) :
    ∀ (dst d : List T) (u : Unit), stdCopy env src dst = .ok d u → d.length = dst.length := by
  induction src with
  | nil => intro dst d u h; simp [stdCopy] at h; rw [h]
  | cons x xs ih =>
    intro dst d u h
    cases dst with
    | nil => simp [stdCopy] at h
    | cons d0 ds =>
      by_cases hx : env.copyThrows x = true
      · simp [stdCopy, hx] at h
      · have hx2 : env.copyThrows x = false := by simpa using hx
        simp only [stdCopy, hx2] at h
        cases hr : stdCopy env xs ds with
        | ok s r =>
          simp [hr] at h
          rw [← h]; simp [ih ds s r hr]
        | raise s e1 => simp [hr] at h
        | undefined => simp [hr] at h

theorem stdCopy_defined (env : Env T) (src : List T) :
    ∀ dst : List T, src.length ≤ dst.length → stdCopy env src dst ≠ .undefined := by
  intro dst hlen
  by_cases h : ∀ x ∈ src, env.copyThrows x = false
  · rw [stdCopy_all_ok env src dst hlen h]; simp
  · have h2 : ∃ x ∈ src, env.copyThrows x = true := by
      by_contra hc
      apply h
      intro x hx
      by_contra hf
      exact hc ⟨x, hx, by simpa using hf⟩
    obtain ⟨d, hd⟩ := stdCopy_some_throws env src dst hlen h2
    rw [hd]; simp

theorem range_of_inv (a : TFSArray T) (h : a.Inv) : a.range = some a.toList := by
  obtain ⟨hsz, hd⟩ := h
  cases hdat : a._data with
  | none =>
    rw [hdat] at hd
    have h0 : a._size = 0 := by omega
    simp [TFSArray.range, TFSArray.toList, hdat, h0]
  | some buf =>
    rw [hdat] at hd
    have hl : a._size ≤ buf.length := by omega
    simp [TFSArray.range, TFSArray.toList, hdat, hl]

theorem toList_length (a : TFSArray T) (h : a.Inv) : a.toList.length = a._size := by
  obtain ⟨hsz, hd⟩ := h
  cases hdat : a._data with
  | none =>
    rw [hdat] at hd
    simp [TFSArray.toList, hdat]; omega
  | some buf =>
    rw [hdat] at hd
    simp [TFSArray.toList, hdat]; omega

theorem resize_le (env : Env T) (a : TFSArray T) (n : Nat) (h : n ≤ a._capacity) :
    a.resize env n = .ok { a with _size := n } () := by
  have : ¬ n > a._capacity := by omega
  simp [TFSArray.resize, this]

theorem resize_grow (env : Env T) (a : TFSArray T) (n : Nat) (hinv : a.Inv)
    (hn : n > a._capacity)
    (halloc : env.allocFails (max n (5 * a._capacity % 2 ^ env.w / 3)) = false)
    (hcopy : ∀ x ∈ a.toList, env.copyThrows x = false) :
    a.resize env n = .ok ⟨max n (5 * a._capacity % 2 ^ env.w / 3), n,
      some (a.toList ++ List.replicate (max n (5 * a._capacity % 2 ^ env.w / 3) - a._size)
        env.dflt)⟩ () := by
  have hlen := toList_length a hinv
  have hle : a.toList.length ≤
      (List.replicate (max n (5 * a._capacity % 2 ^ env.w / 3)) env.dflt).length := by
    have := hinv.1
    simp only [List.length_replicate, hlen]; omega
  have hc := stdCopy_all_ok env a.toList _ hle hcopy
  simp only [TFSArray.resize, hn, if_true, halloc, range_of_inv a hinv, hc]
  simp [hlen]

theorem resize_grow_throw (env : Env T) (a : TFSArray T) (n : Nat) (hinv : a.Inv)
    (hn : n > a._capacity)
    (halloc : env.allocFails (max n (5 * a._capacity % 2 ^ env.w / 3)) = false)
    (hex : ∃ x ∈ a.toList, env.copyThrows x = true) :
    a.resize env n = .raise a .elemCopy := by
  have hlen := toList_length a hinv
  have hle : a.toList.length ≤
      (List.replicate (max n (5 * a._capacity % 2 ^ env.w / 3)) env.dflt).length := by
    have := hinv.1
    simp only [List.length_replicate, hlen]; omega
  obtain ⟨d, hd⟩ := stdCopy_some_throws env a.toList _ hle hex
  simp [TFSArray.resize, hn, halloc, range_of_inv a hinv, hd]

theorem iterSwap_adj (env : Env T) (p r : List T) (a b : T)
    (ha : env.copyThrows a = false) (hb : env.copyThrows b = false)
    (hc : env.ctorThrows a = false) :
    iterSwap env (p ++ a :: b :: r) p.length (p.length + 1) = .ok (p ++ b :: a :: r) () := by
  have h1 : (p ++ a :: b :: r)[p.length]? = some a := by
    rw [List.getElem?_append_right (Nat.le_refl _)]
    simp
  have h2 : (p ++ a :: b :: r)[p.length + 1]? = some b := by
    rw [List.getElem?_append_right (by omega)]
    simp
  have h3 : ((p ++ a :: b :: r).set p.length b).set (p.length + 1) a = p ++ b :: a :: r := by
    rw [List.set_append_right _ _ (Nat.le_refl _), List.set_append_right _ _ (by omega)]
    simp
  simp only [iterSwap, h1, h2, ha, hb, hc, h3, Bool.false_eq_true, if_false]

theorem iterSwap_length (env : Env T) (buf b : List T) (i j : Nat)
    (h : (iterSwap env buf i j).finalState = some b) : b.length = buf.length := by
  unfold iterSwap at h
  split at h
  · split at h
    · simp only [Outcome.finalState, Option.some.injEq] at h; rw [← h]
    · split at h
      · simp only [Outcome.finalState, Option.some.injEq] at h; rw [← h]
      · split at h
        · simp only [Outcome.finalState, Option.some.injEq] at h
          rw [← h]; simp
        · simp only [Outcome.finalState, Option.some.injEq] at h
          rw [← h]; simp
  · simp [Outcome.finalState] at h

theorem iterSwap_defined (env : Env T) (buf : List T) (i j : Nat)
    (hi : i < buf.length) (hj : j < buf.length) : iterSwap env buf i j ≠ .undefined := by
  have h1 : buf[i]? = some buf[i] := List.getElem?_eq_getElem hi
  have h2 : buf[j]? = some buf[j] := List.getElem?_eq_getElem hj
  simp only [iterSwap, h1, h2]
  split
  · simp
  · split
    · simp
    · split <;> simp

theorem swapRunUp_length (env : Env T) :
    ∀ (c : Nat) (buf b : List T) (i j : Nat),
      (swapRunUp env c buf i j).finalState = some b → b.length = buf.length := by
  intro c
  induction c with
  | zero =>
    intro buf b i j h
    simp only [swapRunUp, Outcome.finalState, Option.some.injEq] at h
    rw [← h]
  | succ c ih =>
    intro buf b i j h
    simp only [swapRunUp] at h
    cases hs : iterSwap env buf i j with
    | ok b1 u =>
      rw [hs] at h
      have := iterSwap_length env buf b1 i j (by rw [hs]; rfl)
      rw [← this]
      exact ih b1 b _ _ h
    | raise b1 e =>
      rw [hs] at h
      simp only [Outcome.finalState, Option.some.injEq] at h
      rw [← h]
      exact iterSwap_length env buf b1 i j (by rw [hs]; rfl)
    | undefined =>
      rw [hs] at h
      simp [Outcome.finalState] at h

theorem swapRunUp_defined (env : Env T) :
    ∀ (c : Nat) (buf : List T) (i j : Nat), i + c ≤ buf.length → j + c ≤ buf.length →
      swapRunUp env c buf i j ≠ .undefined := by
  intro c
  induction c with
  | zero => intro buf i j _ _; simp [swapRunUp]
  | succ c ih =>
    intro buf i j hi hj
    simp only [swapRunUp]
    cases hs : iterSwap env buf i j with
    | ok b1 u =>
      have hl := iterSwap_length env buf b1 i j (by rw [hs]; rfl)
      exact ih b1 _ _ (by omega) (by omega)
    | raise b1 e => simp
    | undefined => exact absurd hs (iterSwap_defined env buf i j (by omega) (by omega))

theorem swapRunDown_length (env : Env T) :
    ∀ (c : Nat) (buf b : List T) (i j : Nat),
      (swapRunDown env c buf i j).finalState = some b → b.length = buf.length := by
  intro c
  induction c with
  | zero =>
    intro buf b i j h
    simp only [swapRunDown, Outcome.finalState, Option.some.injEq] at h
    rw [← h]
  | succ c ih =>
    intro buf b i j h
    simp only [swapRunDown] at h
    split at h
    · simp [Outcome.finalState] at h
    · cases hs : iterSwap env buf (i - 1) (j - 1) with
      | ok b1 u =>
        rw [hs] at h
        have := iterSwap_length env buf b1 _ _ (by rw [hs]; rfl)
        rw [← this]
        exact ih b1 b _ _ h
      | raise b1 e =>
        rw [hs] at h
        simp only [Outcome.finalState, Option.some.injEq] at h
        rw [← h]
        exact iterSwap_length env buf b1 _ _ (by rw [hs]; rfl)
      | undefined =>
        rw [hs] at h
        simp [Outcome.finalState] at h

theorem swapRunDown_defined (env : Env T) :
    ∀ (c : Nat) (buf : List T) (i j : Nat), c ≤ i → c ≤ j → i ≤ buf.length →
      j ≤ buf.length → swapRunDown env c buf i j ≠ .undefined := by
  intro c
  induction c with
  | zero => intro buf i j _ _ _ _; simp [swapRunDown]
  | succ c ih =>
    intro buf i j hi hj hil hjl
    have h0 : ¬ (i = 0 ∨ j = 0) := by omega
    simp only [swapRunDown, h0, if_false]
    cases hs : iterSwap env buf (i - 1) (j - 1) with
    | ok b1 u =>
      have hl := iterSwap_length env buf b1 _ _ (by rw [hs]; rfl)
      exact ih b1 _ _ (by omega) (by omega) (by omega) (by omega)
    | raise b1 e => simp
    | undefined => exact absurd hs (iterSwap_defined env buf _ _ (by omega) (by omega))

theorem rotateLoop_length (env : Env T) :
    ∀ (fuel : Nat) (buf b : List T) (p n k : Nat),
      (rotateLoop env fuel buf p n k).finalState = some b → b.length = buf.length := by
  intro fuel
  induction fuel with
  | zero =>
    intro buf b p n k h
    simp only [rotateLoop, Outcome.finalState, Option.some.injEq] at h
    rw [← h]
  | succ fuel ih =>
    intro buf b p n k h
    simp only [rotateLoop] at h
    split at h
    · cases hs : swapRunUp env (n - k) buf p (p + k) with
      | ok b1 u =>
        rw [hs] at h
        have hl := swapRunUp_length env _ buf b1 _ _ (by rw [hs]; rfl)
        simp only at h
        split at h
        · simp only [Outcome.finalState, Option.some.injEq] at h
          rw [← h]; exact hl
        · rw [← hl]; exact ih b1 b _ _ _ h
      | raise b1 e =>
        rw [hs] at h
        simp only [Outcome.finalState, Option.some.injEq] at h
        rw [← h]
        exact swapRunUp_length env _ buf b1 _ _ (by rw [hs]; rfl)
      | undefined =>
        rw [hs] at h
        simp [Outcome.finalState] at h
    · cases hs : swapRunDown env (n - (n - k)) buf (p + n - (n - k)) (p + n) with
      | ok b1 u =>
        rw [hs] at h
        have hl := swapRunDown_length env _ buf b1 _ _ (by rw [hs]; rfl)
        simp only at h
        split at h
        · simp only [Outcome.finalState, Option.some.injEq] at h
          rw [← h]; exact hl
        · rw [← hl]; exact ih b1 b _ _ _ h
      | raise b1 e =>
        rw [hs] at h
        simp only [Outcome.finalState, Option.some.injEq] at h
        rw [← h]
        exact swapRunDown_length env _ buf b1 _ _ (by rw [hs]; rfl)
      | undefined =>
        rw [hs] at h
        simp [Outcome.finalState] at h

theorem rotateLoop_defined (env : Env T) :
    ∀ (fuel : Nat) (buf : List T) (p n k : Nat), p + n ≤ buf.length → 0 < k → k < n →
      rotateLoop env fuel buf p n k ≠ .undefined := by
  intro fuel
  induction fuel with
  | zero => intro buf p n k _ _ _; simp [rotateLoop]
  | succ fuel ih =>
    intro buf p n k hpn hk hkn
    simp only [rotateLoop]
    split
    · have hd := swapRunUp_defined env (n - k) buf p (p + k) (by omega) (by omega)
      cases hs : swapRunUp env (n - k) buf p (p + k) with
      | ok b1 u =>
        have hl := swapRunUp_length env _ buf b1 _ _ (by rw [hs]; rfl)
        simp only
        split
        · simp
        · rename_i hmod
          have hlt : n % k < k := Nat.mod_lt _ hk
          exact ih b1 _ _ _ (by omega) (by omega) (by omega)
      | raise b1 e => simp
      | undefined => exact absurd hs hd
    · have hd := swapRunDown_defined env (n - (n - k)) buf (p + n - (n - k)) (p + n)
        (by omega) (by omega) (by omega) (by omega)
      cases hs : swapRunDown env (n - (n - k)) buf (p + n - (n - k)) (p + n) with
      | ok b1 u =>
        have hl := swapRunDown_length env _ buf b1 _ _ (by rw [hs]; rfl)
        simp only
        split
        · simp
        · rename_i hmod
          have hlt : n % (n - k) < n - k := Nat.mod_lt _ (by omega)
          exact ih b1 _ _ _ (by omega) (by omega) (by omega)
      | raise b1 e => simp
      | undefined => exact absurd hs hd

theorem stdRotate_length (env : Env T) (buf b : List T) (f m l : Nat)
    (h : (stdRotate env buf f m l).finalState = some b) : b.length = buf.length := by
  unfold stdRotate at h
  split at h
  · split at h
    · simp only [Outcome.finalState, Option.some.injEq] at h; rw [← h]
    · split at h
      · simp only [Outcome.finalState, Option.some.injEq] at h; rw [← h]
      · split at h
        · exact swapRunUp_length env _ buf b _ _ h
        · exact rotateLoop_length env _ buf b _ _ _ h
  · simp [Outcome.finalState] at h

theorem stdRotate_defined (env : Env T) (buf : List T) (f m l : Nat)
    (hfm : f ≤ m) (hml : m ≤ l) (hl : l ≤ buf.length) :
    stdRotate env buf f m l ≠ .undefined := by
  have hc : f ≤ m ∧ m ≤ l ∧ l ≤ buf.length := ⟨hfm, hml, hl⟩
  simp only [stdRotate, hc, and_self, if_true]
  split
  · simp
  · split
    · simp
    · split
      · exact swapRunUp_defined env _ buf _ _ (by omega) (by omega)
      · exact rotateLoop_defined env _ buf _ _ _ (by omega) (by omega) (by omega)

theorem swapRunUp_shift (env : Env T) (q rest : List T) (y : T)
    (hy : env.copyThrows y = false) (hyc : env.ctorThrows y = false)
    (hq : ∀ z ∈ q, env.copyThrows z = false) :
    ∀ p : List T, swapRunUp env q.length (p ++ y :: (q ++ rest)) p.length (p.length + 1)
      = .ok (p ++ (q ++ y :: rest)) () := by
  induction q with
  | nil => intro p; simp [swapRunUp]
  | cons z q ih =>
    intro p
    have hz : env.copyThrows z = false := hq z (List.mem_cons_self _ _)
    have hsw := iterSwap_adj env p (q ++ rest) y z hy hz hyc
    have hih := ih (fun w hw => hq w (List.mem_cons_of_mem _ hw)) (p ++ [z])
    simp only [List.length_cons, List.cons_append, swapRunUp, hsw]
    simp only [List.length_append, List.length_singleton, List.append_assoc,
      List.singleton_append] at hih
    exact hih

theorem swapRunDown_shift (env : Env T) (p q : List T) (x : T)
    (hx : env.copyThrows x = false)
    (hq : ∀ z ∈ q, env.copyThrows z = false ∧ env.ctorThrows z = false) :
    ∀ rest : List T, swapRunDown env q.length (p ++ (q ++ x :: rest))
      (p.length + q.length) (p.length + q.length + 1) = .ok (p ++ (x :: q ++ rest)) () := by
  induction q using List.reverseRecOn with
  | nil => intro rest; simp [swapRunDown]
  | append_singleton q z ih =>
    intro rest
    have hz := hq z (by simp)
    have hsw := iterSwap_adj env (p ++ q) rest z x hz.1 hx hz.2
    have hih := ih (fun w hw => hq w (by simp [hw])) (z :: rest)
    have h0 : ¬ (p.length + (q.length + 1) = 0 ∨ p.length + (q.length + 1) + 1 = 0) := by
      omega
    have e1 : p.length + (q.length + 1) - 1 = p.length + q.length := by omega
    have e2 : p.length + (q.length + 1) + 1 - 1 = p.length + q.length + 1 := by omega
    have eb : p ++ (q ++ [z] ++ x :: rest) = (p ++ q) ++ z :: x :: rest := by simp
    have e4 : (p ++ q).length = p.length + q.length := by simp
    rw [e4] at hsw
    have e3 : (p ++ q) ++ x :: z :: rest = p ++ (q ++ x :: (z :: rest)) := by simp
    simp only [List.length_append, List.length_singleton, swapRunDown, h0, if_false, e1, e2,
      eb, hsw, e3, hih]
    simp

theorem stdRotate_erase (env : Env T) (p q rest : List T) (y : T)
    (hthrow : q ≠ [] → env.copyThrows y = false ∧ env.ctorThrows y = false ∧
      ∀ z ∈ q, env.copyThrows z = false) :
    stdRotate env (p ++ (y :: q ++ rest)) p.length (p.length + 1) (p.length + 1 + q.length)
      = .ok (p ++ (q ++ y :: rest)) () := by
  have hc : p.length ≤ p.length + 1 ∧ p.length + 1 ≤ p.length + 1 + q.length ∧
      p.length + 1 + q.length ≤ (p ++ (y :: q ++ rest)).length := by
    simp; omega
  have hfm : ¬ p.length = p.length + 1 := by omega
  have ek : p.length + 1 - p.length = 1 := by omega
  have en : p.length + 1 + q.length - p.length = q.length + 1 := by omega
  have en1 : q.length + 1 - 1 = q.length := by omega
  simp only [stdRotate, hc, and_self, if_true, hfm, if_false, ek, en, en1]
  by_cases hq0 : q = []
  · subst hq0; simp
  · obtain ⟨hy, hyc, hq⟩ := hthrow hq0
    have hpos : 0 < q.length := List.length_pos.mpr hq0
    have hlm : ¬ p.length + 1 + q.length = p.length + 1 := by omega
    have hsh := swapRunUp_shift env q rest y hy hyc hq p
    have eb : p ++ (y :: q ++ rest) = p ++ y :: (q ++ rest) := by simp
    simp only [hlm, if_false, eb]
    by_cases h1 : 1 = q.length
    · simp only [h1, if_true]
      rw [← h1] at hsh ⊢
      exact hsh
    · have hlt : 1 < q.length + 1 - 1 := by omega
      have hlt2 : 1 < q.length := by omega
      simp only [h1, if_false, rotateLoop, hlt, hlt2, if_true, en1, hsh, Nat.mod_one]

theorem stdRotate_insert (env : Env T) (p q rest : List T) (y x : T)
    (hthrow : q ≠ [] → env.copyThrows x = false ∧
      ∀ z ∈ q, env.copyThrows z = false ∧ env.ctorThrows z = false) :
    stdRotate env ((p ++ (q ++ y :: rest)).set (p.length + q.length) x) p.length
      (p.length + q.length) (p.length + q.length + 1) = .ok (p ++ (x :: q ++ rest)) () := by
  have hset : (p ++ (q ++ y :: rest)).set (p.length + q.length) x = p ++ (q ++ x :: rest) := by
    rw [List.set_append_right _ _ (by omega)]
    simp [List.set_append_right]
  rw [hset]
  have hc : p.length ≤ p.length + q.length ∧ p.length + q.length ≤ p.length + q.length + 1 ∧
      p.length + q.length + 1 ≤ (p ++ (q ++ x :: rest)).length := by
    simp; omega
  have hlm : ¬ p.length + q.length + 1 = p.length + q.length := by omega
  have ek : p.length + q.length - p.length = q.length := by omega
  have en : p.length + q.length + 1 - p.length = q.length + 1 := by omega
  have en1 : q.length + 1 - q.length = 1 := by omega
  simp only [stdRotate, hc, and_self, if_true, hlm, if_false, ek, en, en1]
  by_cases hq0 : q = []
  · subst hq0; simp
  · obtain ⟨hx, hq⟩ := hthrow hq0
    have hpos : 0 < q.length := List.length_pos.mpr hq0
    have hfm : ¬ p.length = p.length + q.length := by omega
    simp only [hfm, if_false]
    by_cases h1 : q.length = 1
    · simp only [h1, if_true]
      obtain ⟨z, hz⟩ := List.length_eq_one.mp h1
      subst hz
      have hzt := hq z (by simp)
      have hsh := swapRunUp_shift env [x] rest z hzt.1 hzt.2
        (by intro w hw; simp at hw; rw [hw]; exact hx) p
      simpa using hsh
    · have hlt : ¬ q.length < 1 := by omega
      have hsh := swapRunDown_shift env p q x hx hq rest
      have e1 : q.length + 1 - 1 = q.length := by omega
      have e2 : p.length + (q.length + 1) - 1 = p.length + q.length := by omega
      have e3 : p.length + (q.length + 1) = p.length + q.length + 1 := by omega
      have e4 : p.length + q.length + 1 - 1 = p.length + q.length := by omega
      simp only [h1, if_false, rotateLoop, en1, hlt, e1, e2, e3, e4, hsh, Nat.mod_one, if_true]

/-- Splitting a buffer at offsets `k ≤ n < length`. -/
theorem buf_split (buf : List T) (k n : Nat) (hk : k ≤ n) (hn : n < buf.length) :
    ∃ (p q rest : List T) (y : T), buf = p ++ (q ++ y :: rest) ∧ p.length = k ∧
      p.length + q.length = n ∧ p = buf.take k ∧ q = (buf.take n).drop k ∧
      rest = buf.drop (n + 1) ∧ buf.take n = p ++ q := by
  refine ⟨buf.take k, (buf.take n).drop k, buf.drop (n + 1), buf.get ⟨n, hn⟩, ?_, ?_, ?_,
    rfl, rfl, rfl, ?_⟩
  · have h1 : buf = buf.take n ++ buf.drop n := (List.take_append_drop n buf).symm
    have h2 : buf.drop n = buf.get ⟨n, hn⟩ :: buf.drop (n + 1) := by
      simp
    have h3 : buf.take n = (buf.take n).take k ++ (buf.take n).drop k :=
      (List.take_append_drop k _).symm
    have h4 : (buf.take n).take k = buf.take k := by
      rw [List.take_take, Nat.min_eq_left hk]
    calc buf = buf.take n ++ buf.drop n := h1
      _ = (buf.take k ++ (buf.take n).drop k) ++ (buf.get ⟨n, hn⟩ :: buf.drop (n + 1)) := by
          rw [← h2, ← h4, ← h3]
      _ = _ := by simp
  · simp; omega
  · simp; omega
  · have h4 : (buf.take n).take k = buf.take k := by
      rw [List.take_take, Nat.min_eq_left hk]
    rw [← h4, List.take_append_drop]

theorem insert_after_resize (env : Env T) (a a1 : TFSArray T) (k : Nat) (x : T)
    (buf : List T) (hk : k ≤ a._size) (hfit : a._size + 1 < 2 ^ env.w)
    (hres : a.resize env (a._size + 1) = .ok a1 ()) (hd : a1._data = some buf)
    (hs : a1._size = a._size + 1) (hlen : a._size < buf.length)
    (hx : env.copyThrows x = false)
    (hrot : ∀ z ∈ (buf.take a._size).drop k,
      env.copyThrows z = false ∧ env.ctorThrows z = false) :
    a.insert env (k : Int) x = .ok { a1 with _data := some (buf.take k ++
      (x :: (buf.take a._size).drop k ++ buf.drop (a._size + 1))) } k := by
  obtain ⟨p, q, rest, y, hbuf, hp, hpq, hpe, hqe, hre, _⟩ := buf_split buf k a._size hk hlen
  have hpos : ¬ ((k : Int) < 0 ∨ (k : Int) > (a._size : Int)) := by omega
  have hmod : (a._size + 1) % 2 ^ env.w = a._size + 1 := Nat.mod_eq_of_lt hfit
  have hlast : (a._size + 1 + 2 ^ env.w - 1) % 2 ^ env.w = a._size := by
    have : a._size + 1 + 2 ^ env.w - 1 = a._size + 2 ^ env.w := by omega
    rw [this, Nat.add_mod_right]
    exact Nat.mod_eq_of_lt (by omega)
  have hrotate : stdRotate env (buf.set a._size x) k a._size (a._size + 1)
      = .ok (p ++ (x :: q ++ rest)) () := by
    have := stdRotate_insert env p q rest y x (fun _ => ⟨hx, by rw [hqe]; exact hrot⟩)
    rw [hpq, hp, ← hbuf] at this
    exact this
  simp only [TFSArray.insert, hpos, if_false, hmod, hres, hs, hlast, hd, hlen, if_true, hx,
    Int.toNat_ofNat, hrotate, Bool.false_eq_true]
  rw [hpe, hqe, hre]

theorem insert_post (a : TFSArray T) (c k : Nat) (x : T) (buf : List T)
    (hk : k ≤ a._size) (hlen : buf.length = c) (hc : a._size < c)
    (htake : buf.take a._size = a.toList) :
    (⟨c, a._size + 1, some (buf.take k ++
        (x :: (buf.take a._size).drop k ++ buf.drop (a._size + 1)))⟩ : TFSArray T).toList
      = a.toList.take k ++ x :: a.toList.drop k ∧
    (⟨c, a._size + 1, some (buf.take k ++
        (x :: (buf.take a._size).drop k ++ buf.drop (a._size + 1)))⟩ : TFSArray T).Inv := by
  have hl : a.toList.length = a._size := by
    rw [← htake, List.length_take]; omega
  have hP : buf.take k = a.toList.take k := by
    rw [← htake, List.take_take, Nat.min_eq_left hk]
  constructor
  · simp only [TFSArray.toList, Option.getD_some]
    rw [hP, htake]
    have e : a.toList.take k ++ (x :: a.toList.drop k ++ buf.drop (a._size + 1))
        = (a.toList.take k ++ x :: a.toList.drop k) ++ buf.drop (a._size + 1) := by simp
    rw [e]
    apply List.take_left'
    simp [hl, Nat.min_eq_left hk]
    omega
  · refine ⟨by simp only; omega, ?_⟩
    simp only
    refine ⟨?_, by omega⟩
    simp [List.length_take, List.length_drop]
    omega

theorem insert_ok (env : Env T) (a : TFSArray T) (k : Nat) (x : T) (hinv : a.Inv)
    (hk : k ≤ a._size) (hfit : a._size + 1 < 2 ^ env.w)
    (halloc : a._size + 1 > a._capacity →
      env.allocFails (max (a._size + 1) (5 * a._capacity % 2 ^ env.w / 3)) = false)
    (hcopy : a._size + 1 > a._capacity → ∀ y ∈ a.toList, env.copyThrows y = false)
    (hx : env.copyThrows x = false)
    (hrot : ∀ y ∈ a.toList.drop k, env.copyThrows y = false ∧ env.ctorThrows y = false) :
    ∃ b, a.insert env (k : Int) x = .ok b k ∧ b._size = a._size + 1 ∧
      b._capacity = (if a._size + 1 > a._capacity
        then max (a._size + 1) (5 * a._capacity % 2 ^ env.w / 3) else a._capacity) ∧
      b.toList = a.toList.take k ++ x :: a.toList.drop k ∧ b.Inv := by
  by_cases hg : a._size + 1 > a._capacity
  · have hres := resize_grow env a (a._size + 1) hinv hg (halloc hg) (hcopy hg)
    have hl := toList_length a hinv
    have hlen : (a.toList ++ List.replicate
        (max (a._size + 1) (5 * a._capacity % 2 ^ env.w / 3) - a._size) env.dflt).length
        = max (a._size + 1) (5 * a._capacity % 2 ^ env.w / 3) := by
      simp [hl]
    have htake : (a.toList ++ List.replicate
        (max (a._size + 1) (5 * a._capacity % 2 ^ env.w / 3) - a._size) env.dflt).take a._size
        = a.toList := List.take_left' hl
    have hc : a._size < max (a._size + 1) (5 * a._capacity % 2 ^ env.w / 3) := by omega
    have hins := insert_after_resize env a _ k x _ hk hfit hres rfl rfl
      (by rw [hlen]; exact hc) hx (by rw [htake]; exact hrot)
    obtain ⟨h1, h2⟩ := insert_post a _ k x _ hk hlen hc htake
    exact ⟨_, hins, rfl, by simp [hg], h1, h2⟩
  · have hle : a._size + 1 ≤ a._capacity := by omega
    have hres := resize_le env a (a._size + 1) hle
    obtain ⟨hsz, hd⟩ := hinv
    cases hdat : a._data with
    | none => rw [hdat] at hd; omega
    | some buf =>
      rw [hdat] at hd
      have htake : buf.take a._size = a.toList := by simp [TFSArray.toList, hdat]
      have hc : a._size < a._capacity := by omega
      have hins := insert_after_resize env a _ k x buf hk hfit hres hdat rfl (by omega) hx
        (by rw [htake]; exact hrot)
      obtain ⟨h1, h2⟩ := insert_post a a._capacity k x buf hk hd.1 hc htake
      exact ⟨_, hins, rfl, by simp [hg], h1, h2⟩

theorem erase_ok (env : Env T) (a : TFSArray T) (k : Nat) (hinv : a.Inv)
    (hk : k < a._size) (hfit : a._size < 2 ^ env.w)
    (hrot : k + 1 < a._size →
      ∀ z ∈ a.toList.drop k, env.copyThrows z = false ∧ env.ctorThrows z = false) :
    ∃ b, a.erase env (k : Int) = .ok b k ∧ b._size = a._size - 1 ∧
      b._capacity = a._capacity ∧
      b.toList = a.toList.take k ++ a.toList.drop (k + 1) ∧ b.Inv := by
  obtain ⟨hsz, hd⟩ := hinv
  cases hdat : a._data with
  | none => rw [hdat] at hd; omega
  | some buf =>
    rw [hdat] at hd
    obtain ⟨hbl, hc0⟩ := hd
    have hkl : k < buf.length := by omega
    -- split the buffer around the erased slot and the end of the logical range
    let p := buf.take k
    let y := buf.get ⟨k, hkl⟩
    let q := (buf.drop (k + 1)).take (a._size - (k + 1))
    let rest := buf.drop a._size
    have hp : p.length = k := by simp [p]; omega
    have hq : q.length = a._size - (k + 1) := by simp [q]; omega
    have h1 : buf.drop k = y :: buf.drop (k + 1) := by simp [y]
    have h2 : buf.drop (k + 1) = q ++ rest := by
      have : rest = (buf.drop (k + 1)).drop (a._size - (k + 1)) := by
        simp only [rest, List.drop_drop]
        congr 1; omega
      rw [this]; exact (List.take_append_drop _ _).symm
    have hbuf : buf = p ++ (y :: q ++ rest) := by
      calc buf = buf.take k ++ buf.drop k := (List.take_append_drop k buf).symm
        _ = p ++ (y :: (q ++ rest)) := by rw [h1, h2]
        _ = _ := by simp
    have ha : a.toList = p ++ y :: q := by
      have e : buf = (p ++ y :: q) ++ rest := by rw [hbuf]; simp
      simp only [TFSArray.toList, hdat, Option.getD_some]
      rw [e]
      apply List.take_left'
      simp [hp, hq]; omega
    have hdrop : a.toList.drop k = y :: q := by
      rw [ha]; exact List.drop_left' hp
    have hthrow : q ≠ [] → env.copyThrows y = false ∧ env.ctorThrows y = false ∧
        ∀ z ∈ q, env.copyThrows z = false := by
      intro hq0
      have hpos : 0 < q.length := List.length_pos.mpr hq0
      have hall := hrot (by omega)
      rw [hdrop] at hall
      exact ⟨(hall y (List.mem_cons_self _ _)).1, (hall y (List.mem_cons_self _ _)).2,
        fun z hz => (hall z (List.mem_cons_of_mem _ hz)).1⟩
    have hrotate : stdRotate env buf k (k + 1) a._size = .ok (p ++ (q ++ y :: rest)) () := by
      have := stdRotate_erase env p q rest y hthrow
      rw [hp, hq, ← hbuf] at this
      have e : k + 1 + (a._size - (k + 1)) = a._size := by omega
      rw [e] at this
      exact this
    have hpos : ¬ ((k : Int) < 0 ∨ (k : Int) > (a._size : Int)) := by omega
    have hlast : (a._size + 2 ^ env.w - 1) % 2 ^ env.w = a._size - 1 := by
      have : a._size + 2 ^ env.w - 1 = (a._size - 1) + 2 ^ env.w := by omega
      rw [this, Nat.add_mod_right]
      exact Nat.mod_eq_of_lt (by omega)
    have hres := resize_le env ({ a with _data := some (p ++ (q ++ y :: rest)) })
      (a._size - 1) (by simp only; omega)
    refine ⟨{ a with _data := some (p ++ (q ++ y :: rest)), _size := a._size - 1 }, ?_, rfl,
      rfl, ?_, ?_⟩
    · simp only [TFSArray.erase, hpos, if_false, Int.toNat_ofNat, hdat, hrotate, hlast, hres]
    · have e2 : p ++ (q ++ y :: rest) = (p ++ q) ++ (y :: rest) := by simp
      rw [ha]
      simp only [TFSArray.toList, Option.getD_some]
      rw [e2]
      have t1 : (p ++ y :: q).take k = p := List.take_left' hp
      have t2 : (p ++ y :: q).drop (k + 1) = q := by
        have : p ++ y :: q = (p ++ [y]) ++ q := by simp
        rw [this]
        exact List.drop_left' (by simp [hp])
      rw [t1, t2]
      apply List.take_left'
      simp [hp, hq]; omega
    · refine ⟨by simp only; omega, ?_⟩
      simp only
      refine ⟨?_, hc0⟩
      rw [← hbl]
      conv_rhs => rw [hbuf]
      simp
      omega

theorem inv_set_data (a : TFSArray T) (buf b : List T) (hinv : a.Inv) (hd : a._data = some buf)
    (hl : b.length = buf.length) : ({ a with _data := some b } : TFSArray T).Inv := by
  obtain ⟨hsz, hdd⟩ := hinv
  rw [hd] at hdd
  exact ⟨hsz, by simp only; exact ⟨by omega, hdd.2⟩⟩

theorem ctor_inv (env : Env T) (n : Nat) (r : TFSArray T)
    (h : TFSArray.ctor env n = .ok () r) : r.Inv := by
  have hc : max n DEFAULT_CAP ≠ 0 := by simp [DEFAULT_CAP]
  simp only [TFSArray.ctor, hc, if_false] at h
  split at h
  · simp at h
  · simp only [Outcome.ok.injEq, true_and] at h
    rw [← h]
    exact ⟨by simp only; omega, by simp only [List.length_replicate]; exact ⟨trivial, hc⟩⟩

theorem copyCtor_defined (env : Env T) (a : TFSArray T) (hinv : a.Inv) :
    TFSArray.copyCtor env a ≠ .undefined := by
  have hr := range_of_inv a hinv
  have hl := toList_length a hinv
  unfold TFSArray.copyCtor
  by_cases hc : a._capacity = 0
  · have h0 : a._size = 0 := by have := hinv.1; omega
    have hnil : a.toList = [] := by
      apply List.eq_nil_of_length_eq_zero; omega
    simp [hc, hr, hnil]
  · simp only [hc, if_false, hr]
    split
    · simp
    · have hle : a.toList.length ≤ (List.replicate a._capacity env.dflt).length := by
        have := hinv.1
        simp only [List.length_replicate]; omega
      have hdef := stdCopy_defined env a.toList _ hle
      split
      · simp
      · simp
      · rename_i hu; exact absurd hu hdef

theorem copyCtor_inv (env : Env T) (a r : TFSArray T) (hinv : a.Inv)
    (h : TFSArray.copyCtor env a = .ok () r) : r.Inv := by
  unfold TFSArray.copyCtor at h
  by_cases hc : a._capacity = 0
  · simp only [hc, if_true] at h
    split at h
    · simp only [Outcome.ok.injEq, true_and] at h
      rw [← h]
      exact ⟨by simp only; have := hinv.1; omega, by simp only⟩
    · simp at h
  · simp only [hc, if_false] at h
    split at h
    · simp at h
    · split at h
      · simp at h
      · split at h
        · rename_i buf u hcopy
          simp only [Outcome.ok.injEq, true_and] at h
          rw [← h]
          have := stdCopy_ok_length env _ _ _ _ hcopy
          exact ⟨hinv.1, by simp only; exact ⟨by simpa using this, hc⟩⟩
        · simp at h
        · simp at h

theorem resize_defined (env : Env T) (a : TFSArray T) (n : Nat) (hinv : a.Inv) :
    a.resize env n ≠ .undefined := by
  unfold TFSArray.resize
  split
  · rename_i hn
    simp only [range_of_inv a hinv]
    split
    · simp
    · have hle : a.toList.length ≤
          (List.replicate (max n (5 * a._capacity % 2 ^ env.w / 3)) env.dflt).length := by
        have := hinv.1
        have := toList_length a hinv
        simp only [List.length_replicate]; omega
      have hdef := stdCopy_defined env a.toList _ hle
      split
      · simp
      · simp
      · rename_i hu; exact absurd hu hdef
  · simp

theorem resize_inv (env : Env T) (a s : TFSArray T) (n : Nat) (hinv : a.Inv)
    (h : (a.resize env n).finalState = some s) : s.Inv := by
  unfold TFSArray.resize at h
  split at h
  · rename_i hn
    simp only at h
    split at h
    · simp only [Outcome.finalState, Option.some.injEq] at h
      rw [← h]; exact hinv
    · split at h
      · simp [Outcome.finalState] at h
      · split at h
        · rename_i newData u hcopy
          simp only [Outcome.finalState, Option.some.injEq] at h
          rw [← h]
          have hl := stdCopy_ok_length env _ _ _ _ hcopy
          refine ⟨by simp only; omega, ?_⟩
          simp only
          exact ⟨by simpa using hl, by omega⟩
        · simp only [Outcome.finalState, Option.some.injEq] at h
          rw [← h]; exact hinv
        · simp [Outcome.finalState] at h
  · rename_i hn
    simp only [Outcome.finalState, Option.some.injEq] at h
    rw [← h]
    obtain ⟨hsz, hd⟩ := hinv
    exact ⟨by simp only; omega, hd⟩

theorem insert_inv (env : Env T) (a s : TFSArray T) (pos : Int) (x : T) (hinv : a.Inv)
    (h : (a.insert env pos x).finalState = some s) : s.Inv := by
  unfold TFSArray.insert at h
  split at h
  · simp only [Outcome.finalState, Option.some.injEq] at h
    rw [← h]; exact hinv
  · simp only at h
    split at h
    · rename_i s1 e hres
      simp only [Outcome.finalState, Option.some.injEq] at h
      rw [← h]
      exact resize_inv env a s1 _ hinv (by rw [hres]; rfl)
    · simp [Outcome.finalState] at h
    · rename_i a1 u hres
      have hinv1 : a1.Inv := resize_inv env a a1 _ hinv (by rw [hres]; rfl)
      split at h
      · simp [Outcome.finalState] at h
      · rename_i buf hd
        split at h
        · split at h
          · simp only [Outcome.finalState, Option.some.injEq] at h
            rw [← h]; exact hinv1
          · split at h
            · rename_i buf2 u hrot
              simp only [Outcome.finalState, Option.some.injEq] at h
              rw [← h]
              have hl := stdRotate_length env _ buf2 _ _ _ (by rw [hrot]; rfl)
              exact inv_set_data a1 buf buf2 hinv1 hd (by simpa using hl)
            · rename_i buf2 e hrot
              simp only [Outcome.finalState, Option.some.injEq] at h
              rw [← h]
              have hl := stdRotate_length env _ buf2 _ _ _ (by rw [hrot]; rfl)
              exact inv_set_data a1 buf buf2 hinv1 hd (by simpa using hl)
            · simp [Outcome.finalState] at h
        · simp [Outcome.finalState] at h

theorem insert_defined (env : Env T) (a : TFSArray T) (pos : Int) (x : T) (hinv : a.Inv)
    (hfit : a._size + 1 < 2 ^ env.w) : a.insert env pos x ≠ .undefined := by
  have hmod : (a._size + 1) % 2 ^ env.w = a._size + 1 := Nat.mod_eq_of_lt hfit
  have hlast : (a._size + 1 + 2 ^ env.w - 1) % 2 ^ env.w = a._size := by
    have : a._size + 1 + 2 ^ env.w - 1 = a._size + 2 ^ env.w := by omega
    rw [this, Nat.add_mod_right]
    exact Nat.mod_eq_of_lt (by omega)
  unfold TFSArray.insert
  split
  · simp
  · rename_i hpos
    simp only [hmod]
    have hdef := resize_defined env a (a._size + 1) hinv
    split
    · simp
    · rename_i hu; exact absurd hu hdef
    · rename_i a1 u hres
      have hinv1 : a1.Inv := resize_inv env a a1 _ hinv (by rw [hres]; rfl)
      have hs1 : a1._size = a._size + 1 := by
        unfold TFSArray.resize at hres
        split at hres
        · simp only at hres
          split at hres
          · simp at hres
          · split at hres
            · simp at hres
            · split at hres
              · simp only [Outcome.ok.injEq, and_true] at hres
                rw [← hres]
              · simp at hres
              · simp at hres
        · simp only [Outcome.ok.injEq, and_true] at hres
          rw [← hres]
      obtain ⟨hsz1, hd1⟩ := hinv1
      split
      · rename_i hnone
        rw [hnone] at hd1
        omega
      · rename_i buf hd
        rw [hd] at hd1
        rw [hs1, hlast]
        have hlt : a._size < buf.length := by omega
        simp only [hlt, if_true]
        split
        · simp
        · have hrot := stdRotate_defined env (buf.set a._size x) pos.toNat a._size
            (a._size + 1) (by omega) (by omega) (by simp only [List.length_set]; omega)
          split
          · simp
          · simp
          · rename_i hn; exact absurd hn hrot

theorem erase_inv (env : Env T) (a s : TFSArray T) (pos : Int) (hinv : a.Inv)
    (h : (a.erase env pos).finalState = some s) : s.Inv := by
  unfold TFSArray.erase at h
  split at h
  · simp only [Outcome.finalState, Option.some.injEq] at h
    rw [← h]; exact hinv
  · simp only at h
    split at h
    · simp [Outcome.finalState] at h
    · rename_i buf hd
      split at h
      · simp [Outcome.finalState] at h
      · rename_i buf1 e hrot
        simp only [Outcome.finalState, Option.some.injEq] at h
        rw [← h]
        have hl := stdRotate_length env _ buf1 _ _ _ (by rw [hrot]; rfl)
        exact inv_set_data a buf buf1 hinv hd hl
      · rename_i buf1 u hrot
        have hl := stdRotate_length env _ buf1 _ _ _ (by rw [hrot]; rfl)
        have hinv1 := inv_set_data a buf buf1 hinv hd hl
        split at h
        · rename_i a2 u hres
          simp only [Outcome.finalState, Option.some.injEq] at h
          rw [← h]
          exact resize_inv env _ a2 _ hinv1 (by rw [hres]; rfl)
        · rename_i s1 e hres
          simp only [Outcome.finalState, Option.some.injEq] at h
          rw [← h]
          exact resize_inv env _ s1 _ hinv1 (by rw [hres]; rfl)
        · simp [Outcome.finalState] at h

theorem erase_defined (env : Env T) (a : TFSArray T) (k : Nat) (hinv : a.Inv)
    (hk : k < a._size) : a.erase env (k : Int) ≠ .undefined := by
  have hpos : ¬ ((k : Int) < 0 ∨ (k : Int) > (a._size : Int)) := by omega
  obtain ⟨hsz, hd⟩ := hinv
  cases hdat : a._data with
  | none => rw [hdat] at hd; omega
  | some buf =>
    rw [hdat] at hd
    have hc : k ≤ k + 1 ∧ k + 1 ≤ a._size ∧ a._size ≤ buf.length := by omega
    have hinv : a.Inv := ⟨hsz, by rw [hdat]; exact hd⟩
    simp only [TFSArray.erase, hpos, if_false, Int.toNat_ofNat, hdat]
    have hrdef := stdRotate_defined env buf k (k + 1) a._size hc.1 hc.2.1 hc.2.2
    split
    · rename_i hn; exact absurd hn hrdef
    · simp
    · rename_i buf1 u hrot
      have hl := stdRotate_length env _ buf1 _ _ _ (by rw [hrot]; rfl)
      have hinv1 := inv_set_data a buf buf1 hinv hdat hl
      have hdef := resize_defined env _ ((a._size + 2 ^ env.w - 1) % 2 ^ env.w) hinv1
      split
      · simp
      · simp
      · rename_i hu; exact absurd hu hdef

theorem push_back_state (env : Env T) (a : TFSArray T) (x : T) :
    (a.push_back env x).finalState = (a.insert env (a._size : Int) x).finalState := by
  unfold TFSArray.push_back
  split <;> rename_i h <;> simp [h, Outcome.finalState]

theorem pop_back_state (env : Env T) (a : TFSArray T) :
    (a.pop_back env).finalState = (a.erase env ((a._size : Int) - 1)).finalState := by
  unfold TFSArray.pop_back
  split <;> rename_i h <;> simp [h, Outcome.finalState]

theorem finalState_ne_none {σ α : Type} (o : Outcome σ α) :
    o.finalState ≠ none ↔ o ≠ .undefined := by
  cases o <;> simp [Outcome.finalState]

theorem copyAssign_inv (env : Env T) (a b s : TFSArray T) (ha : a.Inv) (hb : b.Inv)
    (h : (a.copyAssign env b).finalState = some s) : s.Inv := by
  unfold TFSArray.copyAssign at h
  split at h
  · rename_i u r hc
    simp only [Outcome.finalState, Option.some.injEq] at h
    rw [← h]
    have := copyCtor_inv env b r hb hc
    exact this
  · simp only [Outcome.finalState, Option.some.injEq] at h
    rw [← h]; exact ha
  · simp [Outcome.finalState] at h

theorem copyAssign_defined (env : Env T) (a b : TFSArray T) (hb : b.Inv) :
    a.copyAssign env b ≠ .undefined := by
  have := copyCtor_defined env b hb
  unfold TFSArray.copyAssign
  split
  · simp
  · simp
  · rename_i hu; exact absurd hu this

theorem push_back_ok (env : Env T) (a : TFSArray T) (x : T) (hinv : a.Inv)
    (hfit : a._size + 1 < 2 ^ env.w)
    (halloc : a._size + 1 > a._capacity →
      env.allocFails (max (a._size + 1) (5 * a._capacity % 2 ^ env.w / 3)) = false)
    (hcopy : a._size + 1 > a._capacity → ∀ y ∈ a.toList, env.copyThrows y = false)
    (hx : env.copyThrows x = false) :
    ∃ b, a.push_back env x = .ok b () ∧ b._size = a._size + 1 ∧
      b.toList = a.toList ++ [x] ∧ b.Inv := by
  have hlen := toList_length a hinv
  obtain ⟨b, hb, hs, _, hl, hi⟩ :=
    insert_ok env a a._size x hinv (Nat.le_refl _) hfit halloc hcopy hx
      (by intro y hy; rw [List.drop_of_length_le (by omega)] at hy; simp at hy)
  refine ⟨b, by simp [TFSArray.push_back, hb], hs, ?_, hi⟩
  rw [hl, List.take_of_length_le (by omega), List.drop_of_length_le (by omega)]

theorem pop_back_ok (env : Env T) (a : TFSArray T) (hinv : a.Inv)
    (hpos : 0 < a._size) (hfit : a._size < 2 ^ env.w) :
    ∃ b, a.pop_back env = .ok b () ∧ b._size = a._size - 1 ∧
      b._capacity = a._capacity ∧ b.toList = a.toList.take (a._size - 1) ∧ b.Inv := by
  obtain ⟨b, hb, hs, hc, hl, hi⟩ := erase_ok env a (a._size - 1) hinv (by omega) hfit
    (fun h => absurd h (by omega))
  have hlen := toList_length a hinv
  have e : (a._size : Int) - 1 = ((a._size - 1 : Nat) : Int) := by omega
  refine ⟨b, by simp only [TFSArray.pop_back, e, hb], hs, hc, ?_, hi⟩
  rw [hl, List.drop_of_length_le (by omega), List.append_nil]

theorem pushAll_ok (env : Env T) (xs : List T) :
    ∀ a : TFSArray T, a.Inv → a._size + xs.length < 2 ^ env.w →
      (∀ m, env.allocFails m = false) →
      (∀ y ∈ a.toList, env.copyThrows y = false) →
      (∀ y ∈ xs, env.copyThrows y = false) →
      ∃ b, pushAll env a xs = .ok b () ∧ b._size = a._size + xs.length ∧
        b.toList = a.toList ++ xs ∧ b.Inv := by
  induction xs with
  | nil => intro a hinv _ _ _ _; exact ⟨a, rfl, rfl, by simp, hinv⟩
  | cons x xs ih =>
    intro a hinv hfit halloc hca hcx
    have hl : a._size + (xs.length + 1) < 2 ^ env.w := by simpa using hfit
    obtain ⟨b, hb, hs, hlb, hib⟩ := push_back_ok env a x hinv (by omega)
      (fun _ => halloc _) (fun _ => hca) (hcx x (List.mem_cons_self _ _))
    have hcb : ∀ y ∈ b.toList, env.copyThrows y = false := by
      intro y hy
      rw [hlb] at hy
      rcases List.mem_append.mp hy with h | h
      · exact hca y h
      · have : y = x := by simpa using h
        rw [this]; exact hcx x (List.mem_cons_self _ _)
    obtain ⟨c, hc, hsc, hlc, hic⟩ := ih b hib (by omega) halloc hcb
      (fun y hy => hcx y (List.mem_cons_of_mem _ hy))
    refine ⟨c, by simp only [pushAll, hb, hc], by rw [hsc, hs]; simp; omega, ?_, hic⟩
    rw [hlc, hlb]; simp

theorem copyCtor_ok (env : Env T) (a : TFSArray T) (hinv : a.Inv)
    (halloc : a._capacity ≠ 0 → env.allocFails a._capacity = false)
    (hcopy : ∀ y ∈ a.toList, env.copyThrows y = false) :
    TFSArray.copyCtor env a = .ok () ⟨a._capacity, a._size,
      if a._capacity = 0 then none
      else some (a.toList ++ (List.replicate a._capacity env.dflt).drop a.toList.length)⟩ := by
  have hr := range_of_inv a hinv
  have hl := toList_length a hinv
  by_cases hc : a._capacity = 0
  · have h0 : a._size = 0 := by have := hinv.1; omega
    have hnil : a.toList = [] := List.eq_nil_of_length_eq_zero (by omega)
    simp [TFSArray.copyCtor, hc, hr, hnil]
  · have hle : a.toList.length ≤ (List.replicate a._capacity env.dflt).length := by
      have := hinv.1
      simp only [List.length_replicate]; omega
    have hcp := stdCopy_all_ok env a.toList _ hle hcopy
    simp only [TFSArray.copyCtor, hc, if_false, halloc hc, hr, hcp, Bool.false_eq_true]

theorem copy_toList (a : TFSArray T) (d : T) (hinv : a.Inv) :
    (⟨a._capacity, a._size, if a._capacity = 0 then none
      else some (a.toList ++ (List.replicate a._capacity d).drop a.toList.length)⟩ :
      TFSArray T).toList = a.toList := by
  have hl := toList_length a hinv
  by_cases hc : a._capacity = 0
  · have h0 : a._size = 0 := by have := hinv.1; omega
    have hnil : a.toList = [] := List.eq_nil_of_length_eq_zero (by omega)
    simp [TFSArray.toList, hc, h0]
  · simp only [TFSArray.toList, hc, if_false, Option.getD_some]
    exact List.take_left' hl

theorem view_of_agree (h h2 : Heap T) (r : Rep)
    (hvalid : ∀ q, r._data = some q → q < h.length)
    (hagree : ∀ q, q < h.length → h2[q]? = h[q]?) : r.view h2 = r.view h := by
  unfold Rep.view
  cases hd : r._data with
  | none => rfl
  | some q =>
    have := hagree q (hvalid q hd)
    simp only [Heap.deref, this]

theorem repCopyCtor_ok (env : Env T) (h : Heap T) (src : Rep) (hinv : (src.view h).Inv)
    (halloc : src._capacity ≠ 0 → env.allocFails src._capacity = false)
    (hcopy : ∀ y ∈ (src.view h).toList, env.copyThrows y = false) :
    ∃ h1 c, Rep.copyCtor env h src = .ok h1 c ∧
      TFSArray.copyCtor env (src.view h) = .ok () (c.view h1) ∧
      (∀ q, q < h.length → h1[q]? = h[q]?) ∧
      (∀ p, c._data = some p → p = h.length ∧ h1.length = h.length + 1) := by
  have hv := copyCtor_ok env (src.view h) hinv halloc hcopy
  have hr := range_of_inv _ hinv
  have hl := toList_length _ hinv
  by_cases hc : src._capacity = 0
  · have h0 : src._size = 0 := by have := hinv.1; simp only [Rep.view] at this; omega
    have hnil : (src.view h).toList = [] :=
      List.eq_nil_of_length_eq_zero (by rw [hl]; exact h0)
    refine ⟨h, ⟨src._capacity, src._size, none⟩, ?_, ?_, fun _ _ => rfl, ?_⟩
    · simp [Rep.copyCtor, hc, hr, hnil]
    · rw [hv]
      have : (src.view h)._capacity = 0 := hc
      simp [Rep.view, Heap.deref, hc]
    · intro p hp; simp at hp
  · have hc2 : (src.view h)._capacity ≠ 0 := hc
    have hle : (src.view h).toList.length ≤
        (List.replicate src._capacity env.dflt).length := by
      have h1 : src._size ≤ src._capacity := hinv.1
      have h2 : (src.view h)._size = src._size := rfl
      rw [List.length_replicate, hl, h2]; exact h1
    have hcp := stdCopy_all_ok env _ _ hle hcopy
    refine ⟨h ++ [some ((src.view h).toList ++
      (List.replicate src._capacity env.dflt).drop (src.view h).toList.length)],
      ⟨src._capacity, src._size, some h.length⟩, ?_, ?_, ?_, ?_⟩
    · simp only [Rep.copyCtor, hc, if_false, halloc hc, hr, hcp, Bool.false_eq_true]
    · rw [hv]
      simp only [hc2, if_false]
      simp [Rep.view, Heap.deref]
    · intro q hq
      exact List.getElem?_append_left hq
    · intro p hp
      simp only [Option.some.injEq] at hp
      exact ⟨hp.symm, by simp⟩

theorem copyCtor_badAlloc (env : Env T) (a : TFSArray T) (hc : a._capacity ≠ 0)
    (hf : env.allocFails a._capacity = true) :
    TFSArray.copyCtor env a = .raise () .badAlloc := by
  simp [TFSArray.copyCtor, hc, hf]

theorem copyCtor_elemCopy (env : Env T) (a : TFSArray T) (hinv : a.Inv)
    (halloc : a._capacity ≠ 0 → env.allocFails a._capacity = false)
    (hthrow : ∃ y ∈ a.toList, env.copyThrows y = true) :
    TFSArray.copyCtor env a = .raise () .elemCopy := by
  have hr := range_of_inv a hinv
  have hl := toList_length a hinv
  have hc : a._capacity ≠ 0 := by
    intro h0
    obtain ⟨y, hy, _⟩ := hthrow
    have : a.toList.length = 0 := by have := hinv.1; omega
    rw [List.eq_nil_of_length_eq_zero this] at hy
    simp at hy
  have hle : a.toList.length ≤ (List.replicate a._capacity env.dflt).length := by
    have := hinv.1
    simp only [List.length_replicate]; omega
  obtain ⟨d, hd⟩ := stdCopy_some_throws env a.toList _ hle hthrow
  simp only [TFSArray.copyCtor, hc, if_false, halloc hc, hr, hd, Bool.false_eq_true]

end aux

/-! ## Claims -/

section claims

variable {T : Type}

theorem arr123_inv : arr123.Inv := by
  refine ⟨by decide, ?_⟩
  show ([1, 2, 3, 0, 0, 0, 0, 0, 0, 0, 0, 0, 0, 0, 0, 0] : List Nat).length = 16 ∧ 16 ≠ 0
  decide

theorem arr0_inv : arr0.Inv := by
  refine ⟨by decide, ?_⟩
  show (List.replicate 16 0 : List Nat).length = 16 ∧ 16 ≠ 0
  decide

theorem arr7_inv : arr7.Inv := by
  refine ⟨by decide, ?_⟩
  show ([5, 7] : List Nat).length = 2 ∧ 2 ≠ 0
  decide

theorem arr57_inv : arr57.Inv := by
  refine ⟨by decide, ?_⟩
  show ([5, 7, 0, 0, 0, 0, 0, 0, 0, 0, 0, 0, 0, 0, 0, 0] : List Nat).length = 16 ∧ 16 ≠ 0
  decide

theorem big32_inv : big32.Inv := by
  refine ⟨Nat.le_refl _, ?_⟩
  show (List.replicate 858993460 0 : List Nat).length = 858993460 ∧ 858993460 ≠ 0
  exact ⟨List.length_replicate _ _, by decide⟩

/-- C1: on an array satisfying the class invariants with logical sequence `s`, for
`k ≤ size`, when the allocation and the element copies performed by the call succeed
(the copies into a new buffer when the array grows, the assignment of `x`, and the
copies by which `std::rotate` swaps the elements at indices `>= k` into place; and
`size + 1` is representable in `size_type`), `insert(begin()+k, x)` returns normally
with the cursor at index `k`, the size is `|s| + 1`, the logical sequence is
`take k s ++ [x] ++ drop k s`, and index `k` holds `x`. -/
theorem C1_insert_places_item (env : Env T) (a : TFSArray T) (k : Nat) (x : T)
    (hinv : a.Inv) (hk : k ≤ a._size) (hfit : a._size + 1 < 2 ^ env.w)
    (halloc : a._size + 1 > a._capacity →
      env.allocFails (max (a._size + 1) (5 * a._capacity % 2 ^ env.w / 3)) = false)
    (hcopy : a._size + 1 > a._capacity → ∀ y ∈ a.toList, env.copyThrows y = false)
    (hx : env.copyThrows x = false)
    (hshift : ∀ y ∈ a.toList.drop k, env.copyThrows y = false ∧ env.ctorThrows y = false) :
    ∃ b, a.insert env (k : Int) x = .ok b k ∧
      b.size = a.toList.length + 1 ∧
      b.toList = a.toList.take k ++ [x] ++ a.toList.drop k ∧
      b.toList[k]? = some x := by
  obtain ⟨b, hb, hs, _, hl, _⟩ := insert_ok env a k x hinv hk hfit halloc hcopy hx hshift
  have hlen := toList_length a hinv
  refine ⟨b, hb, by simp [TFSArray.size, hs, hlen], by simp [hl], ?_⟩
  rw [hl]
  have hkl : (a.toList.take k).length = k := by simp [hlen]; omega
  rw [List.getElem?_append_right (by omega)]
  simp [hkl]

theorem C1_insert_places_item_witness :
    ∃ b, arr123.insert envNat ((1 : Nat) : Int) 9 = .ok b 1 ∧
      b.size = arr123.toList.length + 1 ∧
      b.toList = arr123.toList.take 1 ++ [9] ++ arr123.toList.drop 1 ∧
      b.toList[1]? = some 9 :=
  C1_insert_places_item envNat arr123 1 9 arr123_inv (by decide) (by decide)
    (by decide) (by decide) (by decide) (fun _ _ => ⟨rfl, rfl⟩)

/-- C2 (as amended): on an array satisfying the class invariants with logical sequence
`s`, for `k < size`, when the element copies by which `std::rotate` swaps the elements
at indices `>= k` into place succeed (none is performed when `k` is the last index),
`erase(begin()+k)` returns normally with the cursor at index `k`; the size is `|s| - 1`,
the logical sequence is `s` without its element at index `k`, the capacity is unchanged,
and the returned cursor is `end()` when the last element was erased. -/
theorem C2_erase_removes_index (env : Env T) (a : TFSArray T) (k : Nat)
    (hinv : a.Inv) (hk : k < a._size) (hfit : a._size < 2 ^ env.w)
    (hshift : k + 1 < a._size →
      ∀ y ∈ a.toList.drop k, env.copyThrows y = false ∧ env.ctorThrows y = false) :
    ∃ b, a.erase env (k : Int) = .ok b k ∧
      b.size = a.toList.length - 1 ∧
      b.toList = a.toList.eraseIdx k ∧
      b.toList = a.toList.take k ++ a.toList.drop (k + 1) ∧
      b._capacity = a._capacity ∧
      (k + 1 = a._size → k = b._size) := by
  obtain ⟨b, hb, hs, hc, hl, _⟩ := erase_ok env a k hinv hk hfit hshift
  have hlen := toList_length a hinv
  refine ⟨b, hb, by simp [TFSArray.size, hs, hlen], ?_, hl, hc, by omega⟩
  rw [hl, List.eraseIdx_eq_take_drop_succ]

theorem C2_erase_removes_index_witness :
    ∃ b, arr123.erase envNat ((0 : Nat) : Int) = .ok b 0 ∧
      b.size = arr123.toList.length - 1 ∧
      b.toList = arr123.toList.eraseIdx 0 ∧
      b.toList = arr123.toList.take 0 ++ arr123.toList.drop (0 + 1) ∧
      b._capacity = arr123._capacity ∧
      (0 + 1 = arr123._size → 0 = b._size) :=
  C2_erase_removes_index envNat arr123 0 arr123_inv (by decide) (by decide)
    (fun _ _ _ => ⟨rfl, rfl⟩)

/-- C2 fails as stated: with an element type whose assignment throws for the value `7`,
on the array `[5, 7, 8]` the call `erase(begin()+0)` does not succeed: the first swap of
`std::rotate` assigns from `7` and throws, and the exception leaves `erase` with the
array as it was, nothing removed. -/
theorem C2_erase_throws_counterexample :
    arr578.toList = [5, 7, 8] ∧ arr578.size = 3 ∧
      arr578.erase envThrow7 0 = .raise arr578 .elemCopy ∧
      ¬ ∃ b, arr578.erase envThrow7 0 = .ok b 0 := by
  have h : arr578.erase envThrow7 0 = .raise arr578 .elemCopy := by decide
  refine ⟨by decide, by decide, h, ?_⟩
  rintro ⟨b, hb⟩
  rw [h] at hb
  exact Outcome.noConfusion hb

/-- C3: the class invariants (`_size <= _capacity`; `_data` holds exactly `_capacity`
slots, and no storage when `_capacity == 0`) hold for every constructed object
(ctor from size, copy ctor, move ctor, together with the moved-from source) and, from
arrays `a` and `b` satisfying them, in the state left by every call of `resize`,
`insert`, `push_back`, `swap`, copy assignment, move assignment, `erase` and `pop_back`,
whether it returns or throws (from the range check, from `resize`, from the assignment of
the new value, or from an element copy inside `std::rotate`).  The calls of `resize`,
the copy operations, `erase` inside
`[begin, end)` and `pop_back` on a non-empty array are always defined; so are `insert`
and `push_back` when `size + 1` is representable in `size_type`. -/
theorem C3_invariants_preserved (env : Env T) (a b : TFSArray T) (ha : a.Inv) (hb : b.Inv) :
    (∀ n r, TFSArray.ctor env n = .ok () r → r.Inv) ∧
    (∀ r, TFSArray.copyCtor env a = .ok () r → r.Inv) ∧
    TFSArray.copyCtor env a ≠ .undefined ∧
    ((TFSArray.moveCtor a).1.Inv ∧ (TFSArray.moveCtor a).2.Inv) ∧
    (∀ n, a.resize env n ≠ .undefined ∧ ∀ s, (a.resize env n).finalState = some s → s.Inv) ∧
    (∀ pos x s, (a.insert env pos x).finalState = some s → s.Inv) ∧
    (∀ x s, (a.push_back env x).finalState = some s → s.Inv) ∧
    (a._size + 1 < 2 ^ env.w →
      ∀ pos x, a.insert env pos x ≠ .undefined ∧ (a.push_back env x).finalState ≠ none) ∧
    ((a.swap b).1.Inv ∧ (a.swap b).2.Inv) ∧
    (a.copyAssign env b ≠ .undefined ∧
      ∀ s, (a.copyAssign env b).finalState = some s → s.Inv) ∧
    ((a.moveAssign b).1.Inv ∧ (a.moveAssign b).2.Inv) ∧
    (∀ pos s, (a.erase env pos).finalState = some s → s.Inv) ∧
    (∀ k : Nat, k < a._size → a.erase env (k : Int) ≠ .undefined) ∧
    (∀ s, (a.pop_back env).finalState = some s → s.Inv) ∧
    (0 < a._size → (a.pop_back env).finalState ≠ none) := by
  refine ⟨fun n r h => ctor_inv env n r h, fun r h => copyCtor_inv env a r ha h,
    copyCtor_defined env a ha, ⟨ha, ?_⟩,
    fun n => ⟨resize_defined env a n ha, fun s h => resize_inv env a s n ha h⟩,
    fun pos x s h => insert_inv env a s pos x ha h, ?_, ?_, ⟨hb, ha⟩,
    ⟨copyAssign_defined env a b hb, fun s h => copyAssign_inv env a b s ha hb h⟩,
    ⟨hb, ha⟩, fun pos s h => erase_inv env a s pos ha h,
    fun k hk => erase_defined env a k ha hk, ?_, ?_⟩
  · exact ⟨Nat.le_refl 0, rfl⟩
  · intro x s h
    rw [push_back_state] at h
    exact insert_inv env a s _ x ha h
  · intro hfit pos x
    refine ⟨insert_defined env a pos x ha hfit, ?_⟩
    rw [push_back_state, finalState_ne_none]
    exact insert_defined env a _ x ha hfit
  · intro s h
    rw [pop_back_state] at h
    exact erase_inv env a s _ ha h
  · intro hpos
    rw [pop_back_state, finalState_ne_none]
    have e : (a._size : Int) - 1 = ((a._size - 1 : Nat) : Int) := by omega
    rw [e]
    exact erase_defined env a (a._size - 1) ha (by omega)

theorem C3_invariants_preserved_witness :
    arr57.Inv ∧ arr0.Inv ∧
      arr57.insert envThrow7 0 1
        = .raise ⟨16, 3, some [5, 1, 1, 0, 0, 0, 0, 0, 0, 0, 0, 0, 0, 0, 0, 0]⟩ .elemCopy ∧
      ∀ s, (arr57.insert envThrow7 0 1).finalState = some s → s.Inv :=
  ⟨arr57_inv, arr0_inv, by decide, fun s h =>
    (C3_invariants_preserved envThrow7 arr57 arr0 arr57_inv arr0_inv).2.2.2.2.2.1 0 1 s h⟩

/-- C4: when the allocation succeeds, constructing with size `n` gives `size() == n`
and capacity `max(n, 16)`; for `n = 0` (default construction) the size is 0, the
capacity is 16 and `empty()` is true. -/
theorem C4_ctor_size_capacity (env : Env T) (n : Nat)
    (halloc : env.allocFails (max n 16) = false) :
    ∃ a, TFSArray.ctor env n = .ok () a ∧ a.size = n ∧ a._capacity = max n 16 ∧
      (n = 0 → a.size = 0 ∧ a._capacity = 16 ∧ a.empty = true) := by
  have hc : max n 16 ≠ 0 := by omega
  refine ⟨⟨max n 16, n, some (List.replicate (max n 16) env.dflt)⟩, ?_, rfl, rfl, ?_⟩
  · simp [TFSArray.ctor, DEFAULT_CAP, halloc]
  · intro h0
    subst h0
    simp [TFSArray.size, TFSArray.empty]

theorem C4_ctor_size_capacity_witness :
    ∃ a, TFSArray.ctor envNat 0 = .ok () a ∧ a.size = 0 ∧ a._capacity = max 0 16 ∧
      (0 = 0 → a.size = 0 ∧ a._capacity = 16 ∧ a.empty = true) :=
  C4_ctor_size_capacity envNat 0 (by decide)

/-- C5: on an array satisfying the class invariants, for `newSize > capacity` with the
allocation succeeding, when copying one of the existing elements throws, `resize`
propagates that exception and the object (size, capacity and every buffer slot) is
exactly as before the call; more generally, whatever `resize` throws, the object is as
before the call. -/
theorem C5_resize_copy_failure (env : Env T) (a : TFSArray T) (newSize : Nat)
    (hinv : a.Inv) (hn : newSize > a._capacity)
    (halloc : env.allocFails (max newSize (5 * a._capacity % 2 ^ env.w / 3)) = false)
    (hthrow : ∃ x ∈ a.toList, env.copyThrows x = true) :
    a.resize env newSize = .raise a .elemCopy ∧
      ∀ (m : Nat) (s : TFSArray T) (e : Exn), a.resize env m = .raise s e → s = a := by
  refine ⟨resize_grow_throw env a newSize hinv hn halloc hthrow, ?_⟩
  intro m s e h
  unfold TFSArray.resize at h
  split at h
  · simp only at h
    split at h
    · simp only [Outcome.raise.injEq] at h; exact h.1.symm
    · split at h
      · simp at h
      · split at h
        · simp at h
        · simp only [Outcome.raise.injEq] at h; exact h.1.symm
        · simp at h
  · simp at h

theorem C5_resize_copy_failure_witness :
    arr7.resize envThrow7 3 = .raise arr7 .elemCopy ∧
      ∀ (m : Nat) (s : TFSArray Nat) (e : Exn),
        arr7.resize envThrow7 m = .raise s e → s = arr7 :=
  C5_resize_copy_failure envThrow7 arr7 3 arr7_inv (by decide) (by decide)
    ⟨7, by decide, by decide⟩

/-- C6 (as amended): on an array satisfying the class invariants, for
`newSize > capacity`, when the allocation and the element copies succeed, `resize`
returns normally with `size == newSize`, capacity
`max(newSize, (5 * oldCapacity mod 2^w) / 3)` (the product taken in `size_type`), which
is `max(newSize, floor(5 * oldCapacity / 3))` whenever `5 * oldCapacity < 2^w`, and the
elements at indices `[0, oldSize)` are as before the call. -/
theorem C6_resize_growth (env : Env T) (a : TFSArray T) (newSize : Nat)
    (hinv : a.Inv) (hn : newSize > a._capacity)
    (halloc : env.allocFails (max newSize (5 * a._capacity % 2 ^ env.w / 3)) = false)
    (hcopy : ∀ y ∈ a.toList, env.copyThrows y = false) :
    ∃ b, a.resize env newSize = .ok b () ∧ b.size = newSize ∧
      b._capacity = max newSize (5 * a._capacity % 2 ^ env.w / 3) ∧
      (5 * a._capacity < 2 ^ env.w → b._capacity = max newSize (5 * a._capacity / 3)) ∧
      b.toList.take a._size = a.toList ∧
      ∀ i, i < a._size → b.toList[i]? = a.toList[i]? := by
  have hres := resize_grow env a newSize hinv hn halloc hcopy
  have hlen := toList_length a hinv
  have hsz := hinv.1
  have htake : (⟨max newSize (5 * a._capacity % 2 ^ env.w / 3), newSize,
      some (a.toList ++ List.replicate
        (max newSize (5 * a._capacity % 2 ^ env.w / 3) - a._size) env.dflt)⟩ :
      TFSArray T).toList.take a._size = a.toList := by
    simp only [TFSArray.toList, Option.getD_some, List.take_take]
    rw [Nat.min_eq_left (by omega)]
    exact List.take_left' hlen
  refine ⟨_, hres, rfl, rfl, ?_, htake, ?_⟩
  · intro hsmall
    simp only [Nat.mod_eq_of_lt hsmall]
  · intro i hi
    have hget := List.getElem?_take_of_lt
      (l := (⟨max newSize (5 * a._capacity % 2 ^ env.w / 3), newSize,
        some (a.toList ++ List.replicate
          (max newSize (5 * a._capacity % 2 ^ env.w / 3) - a._size) env.dflt)⟩ :
        TFSArray T).toList) hi
    rw [htake] at hget
    exact hget.symm

theorem C6_resize_growth_witness :
    ∃ b, arr7.resize envNat 3 = .ok b () ∧ b.size = 3 ∧
      b._capacity = max 3 (5 * arr7._capacity % 2 ^ envNat.w / 3) ∧
      (5 * arr7._capacity < 2 ^ envNat.w → b._capacity = max 3 (5 * arr7._capacity / 3)) ∧
      b.toList.take arr7._size = arr7.toList ∧
      ∀ i, i < arr7._size → b.toList[i]? = arr7.toList[i]? :=
  C6_resize_growth envNat arr7 3 arr7_inv (by decide) (by decide) (by decide)

/-- C6 fails as stated: on a 32-bit target, the array constructed with size 858993460
(capacity 858993460) resized to 858993461 gets capacity 858993461, because
`5 * 858993460` wraps around in `size_type`, whereas
`max(858993461, floor(5 * 858993460 / 3))` is 1431655766. -/
theorem C6_growth_wraps_counterexample :
    TFSArray.ctor env32 858993460 = .ok () big32 ∧
      ∃ b, big32.resize env32 858993461 = .ok b () ∧ b._capacity = 858993461 ∧
        b._capacity ≠ max 858993461 (5 * big32._capacity / 3) := by
  have hres := resize_grow env32 big32 858993461 big32_inv (by decide) rfl (fun _ _ => rfl)
  refine ⟨?_, _, hres, by decide, by decide⟩
  have hm : max 858993460 DEFAULT_CAP = 858993460 := by decide
  unfold TFSArray.ctor
  simp only [hm]
  rfl

/-- C7: for `newSize <= capacity`, `resize` returns normally, sets the size to `newSize`
and leaves the capacity and the whole buffer untouched; hence for `m <= size` (with
`size <= capacity`), `resize(m)` followed by `resize(oldSize)` gives back exactly the
original state. -/
theorem C7_resize_within_capacity (env : Env T) (a : TFSArray T) (newSize : Nat)
    (h : newSize ≤ a._capacity) :
    a.resize env newSize = .ok ⟨a._capacity, newSize, a._data⟩ () ∧
      ∀ m, m ≤ a._size → a._size ≤ a._capacity →
        ∃ b, a.resize env m = .ok b () ∧ b._capacity = a._capacity ∧ b._size = m ∧
          b._data = a._data ∧ b.resize env a._size = .ok a () := by
  refine ⟨resize_le env a newSize h, ?_⟩
  intro m hm hsz
  refine ⟨⟨a._capacity, m, a._data⟩, resize_le env a m (by omega), rfl, rfl, rfl, ?_⟩
  exact resize_le env ⟨a._capacity, m, a._data⟩ a._size hsz

theorem C7_resize_within_capacity_witness :
    arr123.resize envNat 1 = .ok ⟨arr123._capacity, 1, arr123._data⟩ () ∧
      ∀ m, m ≤ arr123._size → arr123._size ≤ arr123._capacity →
        ∃ b, arr123.resize envNat m = .ok b () ∧ b._capacity = arr123._capacity ∧
          b._size = m ∧ b._data = arr123._data ∧ b.resize envNat arr123._size = .ok arr123 () :=
  C7_resize_within_capacity envNat arr123 1 (by decide)

/-- C8: for a position whose offset `k` from `begin()` has `k < 0` or `k > size`,
`insert` throws `std::out_of_range` and the object is exactly as before the call. -/
theorem C8_insert_out_of_range (env : Env T) (a : TFSArray T) (k : Int) (x : T)
    (h : k < 0 ∨ k > (a._size : Int)) :
    a.insert env k x = .raise a .outOfRange := by
  simp [TFSArray.insert, h]

theorem C8_insert_out_of_range_witness :
    arr123.insert envNat 4 9 = .raise arr123 .outOfRange :=
  C8_insert_out_of_range envNat arr123 4 9 (by decide)

/-- C9 (evaluation at the failing input): on the array `[1, 2, 3]`, `erase(end())`
passes the range check `pos < begin() || pos > end()`, so no `std::out_of_range` is
thrown; the call goes on to `std::rotate(pos, pos + 1, end())` on an invalid range.  One
position further, `erase(end() + 1)` is rejected. -/
theorem C9_erase_at_end_not_rejected :
    arr123.erase envNat 3 = .undefined ∧
      arr123.erase envNat 3 ≠ .raise arr123 .outOfRange ∧
      arr123.erase envNat 4 = .raise arr123 .outOfRange := by
  decide

/-- C10 (evaluation at the failing input): on the default-constructed array, with an
element type whose copy assignment throws for the value `7`, `insert(begin(), 7)` throws
from the assignment `_data[_size-1] = item` after `resize(size() + 1)` has already
returned: the size is left at 1 instead of 0. -/
theorem C10_insert_assignment_throw_changes_size :
    TFSArray.ctor envThrow7 0 = .ok () arr0 ∧
      arr0.insert envThrow7 0 7 = .raise ⟨16, 1, some (List.replicate 16 0)⟩ .elemCopy ∧
      (⟨16, 1, some (List.replicate 16 0)⟩ : TFSArray Nat).size ≠ arr0.size ∧
      (⟨16, 1, some (List.replicate 16 0)⟩ : TFSArray Nat).toList ≠ arr0.toList := by
  decide

/-- C11: when allocations and the copies of the pushed values succeed (and `n` is a
`size_type` value), `push_back(x_1)`, ..., `push_back(x_n)` on a default-constructed
array all return normally; after the first `i` calls the size is `i` and the logical
sequence is `[x_1, ..., x_i]` (so the last element is the value just pushed and the
earlier ones are unchanged), for every `i <= n`, whatever `n` is (in particular
beyond the initial capacity 16). -/
theorem C11_push_back_sequence (env : Env T) (xs : List T)
    (hlen : xs.length < 2 ^ env.w) (halloc : ∀ m, env.allocFails m = false)
    (hcopy : ∀ y ∈ xs, env.copyThrows y = false) :
    ∃ a0, TFSArray.ctor env 0 = .ok () a0 ∧
      ∀ i, i ≤ xs.length →
        ∃ b, pushAll env a0 (xs.take i) = .ok b () ∧ b.size = i ∧ b.toList = xs.take i := by
  have hc : max 0 DEFAULT_CAP ≠ 0 := by simp [DEFAULT_CAP]
  have hctor : TFSArray.ctor env 0
      = .ok () ⟨max 0 DEFAULT_CAP, 0, some (List.replicate (max 0 DEFAULT_CAP) env.dflt)⟩ := by
    simp only [TFSArray.ctor, hc, if_false, halloc]
    rfl
  have hinv := ctor_inv env 0 _ hctor
  refine ⟨_, hctor, ?_⟩
  intro i hi
  have hli : (xs.take i).length = i := by simp; omega
  obtain ⟨b, hb, hs, hl, _⟩ := pushAll_ok env (xs.take i) _ hinv
    (by simp only [hli]; omega) halloc
    (by intro y hy; simp [TFSArray.toList] at hy)
    (fun y hy => hcopy y (List.mem_of_mem_take hy))
  refine ⟨b, hb, by simp [TFSArray.size, hs, hli], ?_⟩
  rw [hl]; simp [TFSArray.toList]

theorem C11_push_back_sequence_witness :
    ∃ a0, TFSArray.ctor envNat 0 = .ok () a0 ∧
      ∀ i, i ≤ (List.range 20).length →
        ∃ b, pushAll envNat a0 ((List.range 20).take i) = .ok b () ∧ b.size = i ∧
          b.toList = (List.range 20).take i :=
  C11_push_back_sequence envNat (List.range 20) (by decide) (fun _ => rfl) (fun _ _ => rfl)

/-- C12: on an array satisfying the class invariants, when the allocation and the element
copies performed by `push_back(x)` succeed (and `size + 1` is representable in
`size_type`), `push_back(x)` followed by `pop_back()` both return normally and the size
and the logical sequence are those before the two calls. -/
theorem C12_pop_back_undoes_push_back (env : Env T) (a : TFSArray T) (x : T)
    (hinv : a.Inv) (hfit : a._size + 1 < 2 ^ env.w)
    (halloc : a._size + 1 > a._capacity →
      env.allocFails (max (a._size + 1) (5 * a._capacity % 2 ^ env.w / 3)) = false)
    (hcopy : a._size + 1 > a._capacity → ∀ y ∈ a.toList, env.copyThrows y = false)
    (hx : env.copyThrows x = false) :
    ∃ b c, a.push_back env x = .ok b () ∧ b.pop_back env = .ok c () ∧
      c.size = a.size ∧ c.toList = a.toList := by
  obtain ⟨b, hb, hs, hl, hi⟩ := push_back_ok env a x hinv hfit halloc hcopy hx
  obtain ⟨c, hc, hsc, _, hlc, _⟩ := pop_back_ok env b hi (by omega) (by omega)
  have hlen := toList_length a hinv
  refine ⟨b, c, hb, hc, by simp only [TFSArray.size]; omega, ?_⟩
  rw [hlc, hl, hs]
  simp only [Nat.add_sub_cancel]
  exact List.take_left' hlen

theorem C12_pop_back_undoes_push_back_witness :
    ∃ b c, arr7.push_back envNat 9 = .ok b () ∧ b.pop_back envNat = .ok c () ∧
      c.size = arr7.size ∧ c.toList = arr7.toList :=
  C12_pop_back_undoes_push_back envNat arr7 9 arr7_inv (by decide) (fun _ => rfl)
    (fun _ _ _ => rfl) rfl

/-- C13: with `_data` kept as an address into the free store `h`, for a source object
satisfying the class invariants whose `_data` is null or a live address, when the
allocation and the element copies succeed, copy construction returns an object with the
same size, the same capacity and the same logical sequence; the source denotes the same
array afterwards; the copy's storage is a new block not present in `h`; and whatever is
later done to that block or to blocks allocated after it (every free store that agrees
with `h` on the addresses of `h`, in particular after any write `copy[i] = v`) leaves
the array denoted by the source unchanged. -/
theorem C13_copy_equal_and_independent (env : Env T) (h : Heap T) (src : Rep)
    (hinv : (src.view h).Inv) (hvalid : ∀ q, src._data = some q → q < h.length)
    (halloc : src._capacity ≠ 0 → env.allocFails src._capacity = false)
    (hcopy : ∀ y ∈ (src.view h).toList, env.copyThrows y = false) :
    ∃ h1 c, Rep.copyCtor env h src = .ok h1 c ∧
      TFSArray.copyCtor env (src.view h) = .ok () (c.view h1) ∧
      (c.view h1).size = (src.view h).size ∧
      (c.view h1)._capacity = (src.view h)._capacity ∧
      (c.view h1).toList = (src.view h).toList ∧
      src.view h1 = src.view h ∧
      (∀ p, c._data = some p → p = h.length ∧ src._data ≠ some p) ∧
      (∀ h2 : Heap T, (∀ q, q < h.length → h2[q]? = h[q]?) → src.view h2 = src.view h) ∧
      (∀ i v h2, Rep.subscriptAssign env h1 c i v = some h2 →
        src.view h2 = src.view h ∧
        ∃ buf, (c.view h1)._data = some buf ∧ (c.view h2)._data = some (buf.set i v)) := by
  obtain ⟨h1, c, hc, hv, hag, hown⟩ := repCopyCtor_ok env h src hinv halloc hcopy
  have hvv := copyCtor_ok env (src.view h) hinv halloc hcopy
  have hcv : c.view h1 = ⟨(src.view h)._capacity, (src.view h)._size,
      if (src.view h)._capacity = 0 then none
      else some ((src.view h).toList ++
        (List.replicate (src.view h)._capacity env.dflt).drop (src.view h).toList.length)⟩ := by
    rw [hvv] at hv
    simp only [Outcome.ok.injEq, true_and] at hv
    exact hv.symm
  refine ⟨h1, c, hc, hv, ?_, ?_, ?_, view_of_agree h h1 src hvalid hag, ?_,
    fun h2 hag2 => view_of_agree h h2 src hvalid hag2, ?_⟩
  · rw [hcv]; rfl
  · rw [hcv]
  · rw [hcv]; exact copy_toList (src.view h) env.dflt hinv
  · intro p hp
    refine ⟨(hown p hp).1, ?_⟩
    intro hs
    have := hvalid p hs
    have := (hown p hp).1
    omega
  · intro i v h2 hw
    unfold Rep.subscriptAssign at hw
    cases hd : c._data with
    | none => simp [hd] at hw
    | some p =>
      obtain ⟨hp, hlen⟩ := hown p hd
      simp only [hd] at hw
      cases hb : h1.deref (some p) with
      | none => simp [hb] at hw
      | some buf =>
        simp only [hb] at hw
        split at hw
        · simp only [Option.some.injEq] at hw
          subst hw
          refine ⟨view_of_agree h _ src hvalid ?_, buf, ?_, ?_⟩
          · intro q hq
            rw [List.getElem?_set_ne (by omega)]
            exact hag q hq
          · simp only [Rep.view, hd, hb]
          · have hpl : p < h1.length := by omega
            simp [Rep.view, hd, Heap.deref, List.getElem?_set_self hpl]
        · simp at hw

theorem C13_copy_equal_and_independent_witness :
    ∃ h1 c, Rep.copyCtor envNat heap123 rep123 = .ok h1 c ∧
      TFSArray.copyCtor envNat (rep123.view heap123) = .ok () (c.view h1) ∧
      (c.view h1).size = (rep123.view heap123).size ∧
      (c.view h1)._capacity = (rep123.view heap123)._capacity ∧
      (c.view h1).toList = (rep123.view heap123).toList ∧
      rep123.view h1 = rep123.view heap123 ∧
      (∀ p, c._data = some p → p = heap123.length ∧ rep123._data ≠ some p) ∧
      (∀ h2 : Heap Nat, (∀ q, q < heap123.length → h2[q]? = heap123[q]?) →
        rep123.view h2 = rep123.view heap123) ∧
      (∀ i v h2, Rep.subscriptAssign envNat h1 c i v = some h2 →
        rep123.view h2 = rep123.view heap123 ∧
        ∃ buf, (c.view h1)._data = some buf ∧ (c.view h2)._data = some (buf.set i v)) :=
  C13_copy_equal_and_independent envNat heap123 rep123 arr123_inv (by decide)
    (fun _ => rfl) (fun _ _ => rfl)

/-- C14: move construction is a total operation with no failure case; the source is left
with `_capacity == 0`, `_size == 0` and `_data == nullptr`, and the new object has
exactly the source's prior capacity, size and buffer, hence its prior logical
sequence. -/
theorem C14_move_ctor_transfers (a : TFSArray T) :
    (TFSArray.moveCtor a).2 = ⟨0, 0, none⟩ ∧
      (TFSArray.moveCtor a).1._capacity = a._capacity ∧
      (TFSArray.moveCtor a).1._size = a._size ∧
      (TFSArray.moveCtor a).1._data = a._data ∧
      (TFSArray.moveCtor a).1.toList = a.toList ∧
      (TFSArray.moveCtor a).2.size = 0 ∧ (TFSArray.moveCtor a).2.empty = true :=
  ⟨rfl, rfl, rfl, rfl, rfl, rfl, rfl⟩

/-- C15: `a.swap(b)` and the move assignment `a = move(b)` are total operations with no
failure case, and each leaves `a` with `b`'s former capacity, size and buffer and `b`
with `a`'s former ones; swapping twice gives back both arrays. -/
theorem C15_swap_exchanges (a b : TFSArray T) :
    a.swap b = (b, a) ∧ a.moveAssign b = (b, a) ∧
      (a.swap b).1.swap (a.swap b).2 = (a, b) :=
  ⟨rfl, rfl, rfl⟩

/-- C16: for a right-hand side `b` satisfying the class invariants, the copy assignment
`a = b` (which only reads `b`) either returns normally, which it does when the
allocation and every element copy for the temporary succeed, leaving `a` with `b`'s
size, capacity and logical sequence; or throws `std::bad_alloc` (the allocation fails)
or the element type's exception (an element copy fails), and in every throwing case `a`
is exactly as before the assignment. -/
theorem C16_copy_assign_strong (env : Env T) (a b : TFSArray T) (hb : b.Inv) :
    ((∃ c, a.copyAssign env b = .ok c () ∧ c.size = b.size ∧
        c._capacity = b._capacity ∧ c.toList = b.toList) ∨
      (∃ e, a.copyAssign env b = .raise a e)) ∧
    ((b._capacity ≠ 0 → env.allocFails b._capacity = false) →
      (∀ y ∈ b.toList, env.copyThrows y = false) →
      ∃ c, a.copyAssign env b = .ok c () ∧ c.size = b.size ∧
        c._capacity = b._capacity ∧ c.toList = b.toList) ∧
    (b._capacity ≠ 0 → env.allocFails b._capacity = true →
      a.copyAssign env b = .raise a .badAlloc) ∧
    ((b._capacity ≠ 0 → env.allocFails b._capacity = false) →
      (∃ y ∈ b.toList, env.copyThrows y = true) →
      a.copyAssign env b = .raise a .elemCopy) ∧
    (∀ s e, a.copyAssign env b = .raise s e → s = a) := by
  have hok : (b._capacity ≠ 0 → env.allocFails b._capacity = false) →
      (∀ y ∈ b.toList, env.copyThrows y = false) →
      ∃ c, a.copyAssign env b = .ok c () ∧ c.size = b.size ∧
        c._capacity = b._capacity ∧ c.toList = b.toList := by
    intro halloc hcopy
    have hc := copyCtor_ok env b hb halloc hcopy
    refine ⟨⟨b._capacity, b._size, if b._capacity = 0 then none
      else some (b.toList ++ (List.replicate b._capacity env.dflt).drop b.toList.length)⟩,
      ?_, rfl, rfl, copy_toList b env.dflt hb⟩
    simp only [TFSArray.copyAssign, hc, TFSArray.swap]
  have hbad : b._capacity ≠ 0 → env.allocFails b._capacity = true →
      a.copyAssign env b = .raise a .badAlloc := by
    intro hc hf
    simp only [TFSArray.copyAssign, copyCtor_badAlloc env b hc hf]
  have hel : (b._capacity ≠ 0 → env.allocFails b._capacity = false) →
      (∃ y ∈ b.toList, env.copyThrows y = true) →
      a.copyAssign env b = .raise a .elemCopy := by
    intro halloc hthrow
    simp only [TFSArray.copyAssign, copyCtor_elemCopy env b hb halloc hthrow]
  refine ⟨?_, hok, hbad, hel, ?_⟩
  · by_cases hA : b._capacity ≠ 0 → env.allocFails b._capacity = false
    · by_cases hC : ∀ y ∈ b.toList, env.copyThrows y = false
      · exact Or.inl (hok hA hC)
      · have hC2 : ∃ y ∈ b.toList, env.copyThrows y = true := by
          by_contra hn
          apply hC
          intro y hy
          by_contra hf
          exact hn ⟨y, hy, by simpa using hf⟩
        exact Or.inr ⟨_, hel hA hC2⟩
    · have hc : b._capacity ≠ 0 := fun h0 => hA (fun h1 => absurd h0 h1)
      have hf : env.allocFails b._capacity = true := by
        by_contra hn
        exact hA (fun _ => by simpa using hn)
      exact Or.inr ⟨_, hbad hc hf⟩
  · intro s e h
    unfold TFSArray.copyAssign at h
    split at h
    · simp at h
    · simp only [Outcome.raise.injEq] at h; exact h.1.symm
    · simp at h

theorem C16_copy_assign_strong_witness :
    ((∃ c, arr0.copyAssign envThrow7 arr7 = .ok c () ∧ c.size = arr7.size ∧
        c._capacity = arr7._capacity ∧ c.toList = arr7.toList) ∨
      (∃ e, arr0.copyAssign envThrow7 arr7 = .raise arr0 e)) ∧
    ((arr7._capacity ≠ 0 → envThrow7.allocFails arr7._capacity = false) →
      (∀ y ∈ arr7.toList, envThrow7.copyThrows y = false) →
      ∃ c, arr0.copyAssign envThrow7 arr7 = .ok c () ∧ c.size = arr7.size ∧
        c._capacity = arr7._capacity ∧ c.toList = arr7.toList) ∧
    (arr7._capacity ≠ 0 → envThrow7.allocFails arr7._capacity = true →
      arr0.copyAssign envThrow7 arr7 = .raise arr0 .badAlloc) ∧
    ((arr7._capacity ≠ 0 → envThrow7.allocFails arr7._capacity = false) →
      (∃ y ∈ arr7.toList, envThrow7.copyThrows y = true) →
      arr0.copyAssign envThrow7 arr7 = .raise arr0 .elemCopy) ∧
    (∀ s e, arr0.copyAssign envThrow7 arr7 = .raise s e → s = arr0) :=
  C16_copy_assign_strong envThrow7 arr0 arr7 arr7_inv

/-- C17: starting from the default-constructed array (size 0), `push_back(1)`,
`push_back(2)`, `push_back(3)` give the sequence `[1,2,3]` with size 3; then
`insert(begin()+1, 9)` gives `[1,9,2,3]` with size 4; then `erase(begin()+0)` gives
`[9,2,3]` with size 3; then `pop_back()` gives `[9,2]` with size 2. -/
theorem C17_scenario :
    TFSArray.ctor envNat 0 = .ok () arr0 ∧ arr0.size = 0 ∧
      pushAll envNat arr0 [1, 2, 3] = .ok arr123 () ∧
      arr123.toList = [1, 2, 3] ∧ arr123.size = 3 ∧
      arr123.insert envNat 1 9 = .ok arr1923 1 ∧
      arr1923.toList = [1, 9, 2, 3] ∧ arr1923.size = 4 ∧
      arr1923.erase envNat 0 = .ok arr923 0 ∧
      arr923.toList = [9, 2, 3] ∧ arr923.size = 3 ∧
      arr923.pop_back envNat = .ok arr92 () ∧
      arr92.toList = [9, 2] ∧ arr92.size = 2 := by
  decide

/-- C18 (as amended): `pop_back` has no emptiness check of its own, but it calls
`erase(end() - 1)`, and on an array with `size == 0` that position lies before
`begin()`, so the range check of `erase` throws `std::out_of_range`; the array is left
exactly as it was. -/
theorem C18_pop_back_empty_raises (env : Env T) (a : TFSArray T) (h : a._size = 0) :
    a.pop_back env = .raise a .outOfRange := by
  have hpos : ((a._size : Int) - 1 < 0 ∨ (a._size : Int) - 1 > (a._size : Int)) := by
    left; omega
  simp only [TFSArray.pop_back, TFSArray.erase, hpos, if_true]

theorem C18_pop_back_empty_raises_witness :
    (TFSArray.moveCtor arr123).2.pop_back envNat
      = .raise (TFSArray.moveCtor arr123).2 .outOfRange :=
  C18_pop_back_empty_raises envNat (TFSArray.moveCtor arr123).2 rfl

/-- C18 fails as stated: on the default-constructed array (size 0), `pop_back()` throws
`std::out_of_range`. -/
theorem C18_pop_back_empty_counterexample :
    TFSArray.ctor envNat 0 = .ok () arr0 ∧ arr0.size = 0 ∧
      arr0.pop_back envNat = .raise arr0 .outOfRange ∧
      ¬ (∀ s e, arr0.pop_back envNat ≠ .raise s e) := by
  refine ⟨by decide, by decide, by decide, ?_⟩
  intro h
  exact h arr0 .outOfRange (by decide)

/-- C19 (as amended): on the moved-from state (`_capacity == 0`, `_size == 0`,
`_data == nullptr`), when the allocation of one slot and the copy assignment of `x`
succeed, `push_back(x)` returns normally with size 1, capacity 1 and logical sequence
`[x]`; and for `n > 0`, when the allocation succeeds, `resize(n)` returns normally with
capacity exactly `n`. -/
theorem C19_moved_from_usable (env : Env T) (a : TFSArray T) (x : T)
    (hw : 1 < 2 ^ env.w) (halloc : env.allocFails 1 = false)
    (hx : env.copyThrows x = false) :
    (TFSArray.moveCtor a).2.push_back env x = .ok ⟨1, 1, some [x]⟩ () ∧
      (⟨1, 1, some [x]⟩ : TFSArray T).toList = [x] ∧
      ∀ n, 0 < n → env.allocFails n = false →
        ∃ b, (TFSArray.moveCtor a).2.resize env n = .ok b () ∧ b._capacity = n ∧
          b.size = n := by
  have hm : (0 + 1) % 2 ^ env.w = 1 := Nat.mod_eq_of_lt (by simpa using hw)
  have hl : (1 + 2 ^ env.w - 1) % 2 ^ env.w = 0 := by
    have : 1 + 2 ^ env.w - 1 = 2 ^ env.w := by omega
    rw [this]; exact Nat.mod_self _
  have hz : 5 * 0 % 2 ^ env.w / 3 = 0 := by simp
  refine ⟨?_, rfl, ?_⟩
  · have hres : (TFSArray.moveCtor a).2.resize env 1 = .ok ⟨1, 1, some [env.dflt]⟩ () := by
      simp [TFSArray.resize, TFSArray.moveCtor, halloc, TFSArray.range, stdCopy]
    have hrot : stdRotate env [x] 0 0 1 = .ok [x] () := by
      simp [stdRotate]
    have hsz : ((TFSArray.moveCtor a).2._size : Int) = 0 := rfl
    have hsz2 : (TFSArray.moveCtor a).2._size = 0 := rfl
    simp [TFSArray.push_back, TFSArray.insert, hsz, hsz2, hm, hres, hl, hx, hrot]
  · intro n hn hal
    have hmax : max n (5 * 0 % 2 ^ env.w / 3) = n := by rw [hz]; exact Nat.max_eq_left (Nat.zero_le _)
    refine ⟨⟨n, n, some (List.replicate n env.dflt)⟩, ?_, rfl, rfl⟩
    have hcap : (TFSArray.moveCtor a).2._capacity = 0 := rfl
    have hgt : n > (TFSArray.moveCtor a).2._capacity := hn
    have hrange : (TFSArray.moveCtor a).2.range = some [] := rfl
    have hgt0 : n > 0 := hn
    simp only [TFSArray.resize, hgt, if_true, hcap, hmax, hal, hrange, stdCopy,
      Bool.false_eq_true, if_false, hgt0]

theorem C19_moved_from_usable_witness :
    (TFSArray.moveCtor arr123).2.push_back envNat 5 = .ok ⟨1, 1, some [5]⟩ () ∧
      (⟨1, 1, some [5]⟩ : TFSArray Nat).toList = [5] ∧
      ∀ n, 0 < n → envNat.allocFails n = false →
        ∃ b, (TFSArray.moveCtor arr123).2.resize envNat n = .ok b () ∧ b._capacity = n ∧
          b.size = n :=
  C19_moved_from_usable envNat arr123 5 (by decide) rfl rfl

/-- C19 fails as stated: with an element type whose copy assignment throws for the value
`7`, `push_back(7)` on a moved-from array does not return normally although the
allocation succeeds; the exception leaves the array with size 1 and capacity 1. -/
theorem C19_moved_from_push_back_counterexample :
    (TFSArray.moveCtor arr123).2 = ⟨0, 0, none⟩ ∧
      envThrow7.allocFails 1 = false ∧
      (TFSArray.moveCtor arr123).2.push_back envThrow7 7
        = .raise ⟨1, 1, some [0]⟩ .elemCopy := by
  decide

/-- C20: with `5 * _capacity` computed modulo `2^w`, for `newSize > capacity` the
capacity chosen by `resize` is `max(newSize, (5 * capacity mod 2^w) / 3)`, which is at
least `newSize`, strictly greater than the old capacity and again a `size_type` value;
so whenever the growing `resize` returns (as it does when the allocation and the copies
succeed), `size <= capacity` holds afterwards, wrap-around or not. -/
theorem C20_growth_capacity_bound (env : Env T) (a : TFSArray T) (newSize : Nat)
    (hn : newSize > a._capacity) :
    (∀ b, a.resize env newSize = .ok b () →
      b._capacity = max newSize (5 * a._capacity % 2 ^ env.w / 3) ∧
      newSize ≤ b._capacity ∧ a._capacity < b._capacity ∧ b._size ≤ b._capacity) ∧
    (a.Inv → env.allocFails (max newSize (5 * a._capacity % 2 ^ env.w / 3)) = false →
      (∀ y ∈ a.toList, env.copyThrows y = false) →
      ∃ b, a.resize env newSize = .ok b ()) ∧
    (newSize < 2 ^ env.w → max newSize (5 * a._capacity % 2 ^ env.w / 3) < 2 ^ env.w) := by
  refine ⟨?_, ?_, ?_⟩
  · intro b h
    unfold TFSArray.resize at h
    simp only [hn, if_true] at h
    split at h
    · simp at h
    · split at h
      · simp at h
      · split at h
        · simp only [Outcome.ok.injEq, and_true] at h
          rw [← h]
          refine ⟨rfl, ?_, ?_, ?_⟩ <;> simp only <;> omega
        · simp at h
        · simp at h
  · intro hinv halloc hcopy
    exact ⟨_, resize_grow env a newSize hinv hn halloc hcopy⟩
  · intro hfit
    have hpos : 0 < 2 ^ env.w := Nat.pos_of_ne_zero (by positivity)
    have h1 : 5 * a._capacity % 2 ^ env.w < 2 ^ env.w := Nat.mod_lt _ hpos
    have h2 : 5 * a._capacity % 2 ^ env.w / 3 ≤ 5 * a._capacity % 2 ^ env.w :=
      Nat.div_le_self _ _
    omega

theorem C20_growth_capacity_bound_witness :
    (∀ b, big32.resize env32 858993461 = .ok b () →
      b._capacity = max 858993461 (5 * big32._capacity % 2 ^ env32.w / 3) ∧
      858993461 ≤ b._capacity ∧ big32._capacity < b._capacity ∧ b._size ≤ b._capacity) ∧
    (big32.Inv →
      env32.allocFails (max 858993461 (5 * big32._capacity % 2 ^ env32.w / 3)) = false →
      (∀ y ∈ big32.toList, env32.copyThrows y = false) →
      ∃ b, big32.resize env32 858993461 = .ok b ()) ∧
    (858993461 < 2 ^ env32.w →
      max 858993461 (5 * big32._capacity % 2 ^ env32.w / 3) < 2 ^ env32.w) :=
  C20_growth_capacity_bound env32 big32 858993461 (by decide)

end claims

end TFS
